import Mathlib

/-!
Shallow embedding of `src/text.rs` of the typing-racer repository, together
with proofs and refutations of the specification's claims about it.

Modelling conventions:
* Rust `String` values are lists of Unicode scalar values (`List Char`);
  `String::len` (a byte count) is `utf8Len`, computed from `Char.utf8Size`.
* `f32` arithmetic is modelled by exact rational arithmetic (`ℚ`).  The IEEE
  special values that the resampler can actually produce (NaN and the two
  infinities, which arise from dividing by zero) are modelled explicitly by
  the type `RF` below.  A stored `f32` that is NaN is modelled as
  `Option.none` (the code only ever observes NaN-ness of `accuracy`).
* Machine integers (`u32`, `usize`) are modelled as `Nat`; each subtraction
  the source could underflow is modelled as an explicit panic, matching the
  overflow-checked (debug) profile; at every such site the release profile
  provably panics as well (by a subsequent out-of-bounds index) or cannot
  underflow at all.
* A Rust panic (failed `assert!`, `unwrap`, arithmetic underflow, index out
  of bounds) is `Option.none`, resp. `Except.error ()`.
* Clock reads (`Instant::now()`) are passed in as explicit `now : Nat`
  arguments (durations are saturating, like `Instant::duration_since`).
* Rust's Unicode `char::is_alphanumeric` is an external classification
  table; it is taken as a parameter `isAlnum` throughout (it only influences
  the `typed_words` field, which no claim mentions).
-/

/-- Number of UTF-8 bytes of a string (Rust `String::len`). -/
def utf8Len (s : List Char) : Nat := (s.map Char.utf8Size).sum

/-- Rust `str::char_indices`, starting from byte offset `o`. -/
def charIndicesAux (o : Nat) : List Char → List (Nat × Char)
  | [] => []
  | c :: cs => (o, c) :: charIndicesAux (o + c.utf8Size) cs

/-- Rust `str::char_indices`. -/
def charIndices (s : List Char) : List (Nat × Char) := charIndicesAux 0 s

/-- Rust `str::is_char_boundary`: offset 0, the total byte length, or the
start offset of some character. -/
def isBoundary (s : List Char) (i : Nat) : Bool :=
  i == utf8Len s || (charIndices s).any (fun p => p.1 == i)

/-- Fuelled version of the `while !text.is_char_boundary(end)` search. -/
def nextBoundaryAux (s : List Char) : Nat → Nat → Nat
  | 0, i => i
  | fuel + 1, i => if isBoundary s i then i else nextBoundaryAux s fuel (i + 1)

/-- `TextManager::get_next_boundary`: the smallest char boundary at or after
`i`.  The fuel covers every call the source makes (`i ≤ utf8Len s`). -/
def get_next_boundary (s : List Char) (i : Nat) : Nat :=
  nextBoundaryAux s (utf8Len s + 1 - i) i

/-- Byte slice `&s[a..b]` for char-boundary offsets `a`, `b`: the characters
whose start offset lies in `[a, b)`; `o` is the byte offset of the head of
`cs`. -/
def sliceFrom (a b : Nat) : Nat → List Char → List Char
  | _, [] => []
  | o, c :: cs => (if a ≤ o ∧ o < b then [c] else []) ++ sliceFrom a b (o + c.utf8Size) cs

/-- Byte slice `&s[a..b]`. -/
def byteSlice (s : List Char) (a b : Nat) : List Char := sliceFrom a b 0 s

/-- One `LetterInfo` ledger entry (`duration` in clock ticks). -/
structure LetterInfo where
  duration : Nat
  count : Nat
  errors : Nat
deriving DecidableEq

/-- The `TextManager` state.  `started` models `start_time.is_some()`;
`accuracy = none` models a stored NaN; `letters` is the `HashMap`. -/
structure TM where
  current_text : List Char
  typed_text : List Char
  started : Bool
  last_type : Option Nat
  typed_chars : Nat
  typed_words : ℚ
  accuracy : Option ℚ
  letters : Char → Option LetterInfo

/-- The freshly constructed `TextManager` (note `accuracy` starts at the
f32 value `0.0`, not NaN). -/
def initTM (t : List Char) : TM :=
  { current_text := t, typed_text := [], started := false, last_type := none,
    typed_chars := 0, typed_words := 0, accuracy := some 0, letters := fun _ => none }

/-- `TextManager::new`, with its `assert!(current_text.len() > 0)` modelled
as a panic. -/
def newTM (t : List Char) : Option TM :=
  if utf8Len t = 0 then none else some (initTM t)

/-- Accumulator of the scan loop in `TextManager::update_stats`. -/
structure ScanSt where
  typed_chars : Nat
  typed_words : ℚ
  in_word : Bool
  curr_word_chars : Nat
  curr_word_correct : Nat
  total_correct : Nat
  last_typed_real : Char
deriving DecidableEq

/-- Initial accumulator of the `update_stats` scan. -/
def scanInit : ScanSt :=
  { typed_chars := 0, typed_words := 0, in_word := false, curr_word_chars := 0,
    curr_word_correct := 0, total_correct := 0, last_typed_real := '\x00' }

/-- One iteration of the `update_stats` scan loop, for typed character `t`
matched against target character `c` (the `if let Some(text_char)` body). -/
def scanStep (isAlnum : Char → Bool) (t c : Char) (st : ScanSt) : ScanSt :=
  let st1 := { st with curr_word_chars := st.curr_word_chars + 1 }
  let st2 := if t = c then
      { st1 with typed_chars := st1.typed_chars + 1,
                 curr_word_correct := st1.curr_word_correct + 1,
                 total_correct := st1.total_correct + 1 }
    else st1
  let st3 := if st2.in_word ∧ ¬ isAlnum c then
      { st2 with
        typed_words :=
          st2.typed_words + (st2.curr_word_correct : ℚ) / (st2.curr_word_chars : ℚ),
        in_word := false }
    else st2
  let st4 := if ¬ st3.in_word ∧ isAlnum c then { st3 with in_word := true } else st3
  { st4 with last_typed_real := c }

/-- The `for typed in self.typed_text.chars()` loop of `update_stats`;
returns the final accumulator and what is left of `text_iter`. -/
def scanLoop (isAlnum : Char → Bool) : List Char → List Char → ScanSt → ScanSt × List Char
  | [], text, st => (st, text)
  | _ :: typed, [], st => scanLoop isAlnum typed [] st
  | t :: typed, c :: text, st => scanLoop isAlnum typed text (scanStep isAlnum t c st)

/-- The value stored into `accuracy`: `total_correct as f32 /
self.typed_text.len() as f32` (note: a byte length), with the `0/0` NaN
case as `none`. -/
def accOf (total : Nat) (typed : List Char) : Option ℚ :=
  if utf8Len typed = 0 then none else some ((total : ℚ) / (utf8Len typed : ℚ))

/-- `TextManager::update_stats`.  Panics (`none`) exactly where the source
does: the `assert_ne!` on `'\0'`, the two `unwrap`s of the delete branch,
and the (debug-profile) underflow of `info.count -= 1`. -/
def update_stats (isAlnum : Char → Bool) (tm : TM) (has_inserted : Bool)
    (last_typed : Char) (now : Nat) : Option TM :=
  let sc := scanLoop isAlnum tm.typed_text tm.current_text scanInit
  let st := sc.1
  let base : TM :=
    { tm with
      typed_chars := st.typed_chars,
      typed_words := st.typed_words,
      accuracy := accOf st.total_correct tm.typed_text }
  if has_inserted then
    if st.last_typed_real = '\x00' then none
    else
      let info := (tm.letters st.last_typed_real).getD ⟨0, 0, 0⟩
      if last_typed = st.last_typed_real then
        match tm.last_type with
        | none => none
        | some lt =>
          some { base with
            letters := Function.update tm.letters st.last_typed_real
              (some ⟨info.duration + (now - lt), info.count + 1, info.errors⟩),
            last_type := some now }
      else
        some { base with
          letters := Function.update tm.letters st.last_typed_real
            (some ⟨info.duration, info.count, info.errors + 1⟩),
          last_type := some now }
  else
    match sc.2 with
    | [] => none
    | c2 :: _ =>
      if last_typed = c2 then
        match tm.letters c2 with
        | none => none
        | some info =>
          if info.count = 0 then none
          else some { base with
            letters := Function.update tm.letters c2
              (some ⟨info.duration, info.count - 1, info.errors⟩) }
      else some base

/-- The first-keystroke timer initialisation at the top of
`TextManager::type_char`. -/
def tmStart (tm : TM) (now : Nat) : TM :=
  if tm.started then tm else { tm with started := true, last_type := some now }

/-- `TextManager::type_char`.  The length guard compares byte lengths, as
the source does. -/
def type_char (isAlnum : Char → Bool) (tm : TM) (c : Char) (now : Nat) : Option TM :=
  let tm1 := tmStart tm now
  if utf8Len tm1.typed_text < utf8Len tm1.current_text then
    update_stats isAlnum { tm1 with typed_text := tm1.typed_text ++ [c] } true c now
  else some tm1

/-- `TextManager::del_char` (the delete branch of `update_stats` never
reads the clock, so a dummy instant is passed). -/
def del_char (isAlnum : Char → Bool) (tm : TM) : Option TM :=
  match tm.typed_text.getLast? with
  | none => some tm
  | some c => update_stats isAlnum { tm with typed_text := tm.typed_text.dropLast } false c 0

/-- `TextManager::get_accuracy` (`none` iff the stored value is NaN). -/
def get_accuracy (tm : TM) : Option ℚ := tm.accuracy

/-- Ledger correct-count of a code point (0 when no entry exists). -/
def countOf (tm : TM) (c : Char) : Nat := ((tm.letters c).getD ⟨0, 0, 0⟩).count

/-- Ledger error-count of a code point (0 when no entry exists). -/
def errorsOf (tm : TM) (c : Char) : Nat := ((tm.letters c).getD ⟨0, 0, 0⟩).errors

/-- States reachable from `TextManager::new t` by `type_char`/`del_char`
calls that return normally. -/
inductive Reach (isAlnum : Char → Bool) (t : List Char) : TM → Prop
  | init : Reach isAlnum t (initTM t)
  | type (tm c now tm') : Reach isAlnum t tm →
      type_char isAlnum tm c now = some tm' → Reach isAlnum t tm'
  | del (tm tm') : Reach isAlnum t tm →
      del_char isAlnum tm = some tm' → Reach isAlnum t tm'

/-- C1: the spec's code-point length bound fails on the code.  Against the
one-code-point target `"ä"` (two bytes), the byte-length guard of
`type_char` admits two one-byte characters, so `typed` reaches 2 code
points while the target has 1. -/
theorem c1_bug_eval :
    (Option.bind (Option.bind (newTM ['ä'])
        (fun s => type_char Char.isAlphanum s 'a' 0))
        (fun s => type_char Char.isAlphanum s 'a' 1)).map
      (fun s => s.typed_text.length) = some 2 ∧ (['ä'] : List Char).length = 1 := by
  constructor
  · decide
  · decide

/-- C10: `del_char` does not always succeed on a non-empty typed buffer.
After typing `'a'` twice against the target `"ä"` (admitted by the
byte-length guard of `type_char`), the buffer is non-empty, yet the first
`del_char` reaches `text_iter.next().unwrap()` with the iterator already
exhausted: the call panics. -/
theorem c10_bug_eval :
    Option.bind (Option.bind (Option.bind (newTM ['ä'])
        (fun s => type_char Char.isAlphanum s 'a' 0))
        (fun s => type_char Char.isAlphanum s 'a' 1))
      (fun s => del_char Char.isAlphanum s) = none ∧
    (Option.bind (Option.bind (newTM ['ä'])
        (fun s => type_char Char.isAlphanum s 'a' 0))
        (fun s => type_char Char.isAlphanum s 'a' 1)).map
      (fun s => s.typed_text.isEmpty) = some false := by
  exact ⟨rfl, rfl⟩

/-- C4 fails as stated: in the freshly constructed state the typed buffer
has zero code points, yet `get_accuracy` returns the defined value `0`
rather than no value (the field is initialised to `0.0`, which is not
NaN). -/
theorem c4_counterexample :
    get_accuracy (initTM ['a']) = some 0 ∧ (initTM ['a']).typed_text.length = 0 := by
  exact ⟨rfl, rfl⟩

theorem utf8Len_nil : utf8Len [] = 0 := rfl

theorem utf8Len_cons (c : Char) (s : List Char) :
    utf8Len (c :: s) = c.utf8Size + utf8Len s := by
  simp [utf8Len]

theorem utf8Len_append (s t : List Char) :
    utf8Len (s ++ t) = utf8Len s + utf8Len t := by
  simp [utf8Len]

theorem utf8Len_eq_zero {s : List Char} : utf8Len s = 0 ↔ s = [] := by
  cases s with
  | nil => simp [utf8Len]
  | cons c s =>
    simp only [utf8Len_cons]
    constructor
    · intro h
      exact absurd h (by have := Char.utf8Size_pos c; omega)
    · intro h
      exact absurd h (by simp)

theorem length_le_utf8Len (s : List Char) : s.length ≤ utf8Len s := by
  induction s with
  | nil => simp [utf8Len]
  | cons c s ih =>
    have := Char.utf8Size_pos c
    simp only [utf8Len_cons, List.length_cons]
    omega

theorem scanStep_last (A : Char → Bool) (t c : Char) (st : ScanSt) :
    (scanStep A t c st).last_typed_real = c := rfl

theorem scanStep_total (A : Char → Bool) (t c : Char) (st : ScanSt) :
    (scanStep A t c st).total_correct =
      if t = c then st.total_correct + 1 else st.total_correct := by
  unfold scanStep
  dsimp only
  split_ifs <;> rfl

theorem scanStep_typed_chars (A : Char → Bool) (t c : Char) (st : ScanSt) :
    (scanStep A t c st).typed_chars =
      if t = c then st.typed_chars + 1 else st.typed_chars := by
  unfold scanStep
  dsimp only
  split_ifs <;> rfl

theorem scanLoop_snd (A : Char → Bool) : ∀ (typed text : List Char) (st : ScanSt),
    (scanLoop A typed text st).2 = text.drop typed.length
  | [], text, st => by simp [scanLoop]
  | t :: typed, [], st => by
    rw [scanLoop, scanLoop_snd A typed [] st]
    simp
  | t :: typed, c :: text, st => by
    rw [scanLoop, scanLoop_snd A typed text _]
    simp

theorem scanLoop_total_le (A : Char → Bool) : ∀ (typed text : List Char) (st : ScanSt),
    (scanLoop A typed text st).1.total_correct ≤ st.total_correct + typed.length
  | [], text, st => by simp [scanLoop]
  | t :: typed, [], st => by
    have := scanLoop_total_le A typed [] st
    rw [scanLoop]
    simpa using Nat.le_trans this (by simp)
  | t :: typed, c :: text, st => by
    have h := scanLoop_total_le A typed text (scanStep A t c st)
    rw [scanLoop]
    refine Nat.le_trans h ?_
    rw [scanStep_total]
    simp only [List.length_cons]
    split <;> omega

theorem tmStart_typed (tm : TM) (now : Nat) : (tmStart tm now).typed_text = tm.typed_text := by
  unfold tmStart
  split <;> rfl

theorem tmStart_current (tm : TM) (now : Nat) :
    (tmStart tm now).current_text = tm.current_text := by
  unfold tmStart
  split <;> rfl

theorem tmStart_letters (tm : TM) (now : Nat) : (tmStart tm now).letters = tm.letters := by
  unfold tmStart
  split <;> rfl

theorem tmStart_accuracy (tm : TM) (now : Nat) : (tmStart tm now).accuracy = tm.accuracy := by
  unfold tmStart
  split <;> rfl

theorem tmStart_typed_chars (tm : TM) (now : Nat) :
    (tmStart tm now).typed_chars = tm.typed_chars := by
  unfold tmStart
  split <;> rfl

theorem tmStart_started (tm : TM) (now : Nat) : (tmStart tm now).started = true := by
  unfold tmStart
  split
  · assumption
  · rfl

theorem tmStart_of_started {tm : TM} (now : Nat) (h : tm.started = true) :
    tmStart tm now = tm := by
  unfold tmStart
  rw [h]
  simp

/-- Every successful `update_stats` call leaves `current_text`,
`typed_text` and `started` unchanged and recomputes `typed_chars` and
`accuracy` from the scan of the (already updated) typed buffer. -/
theorem update_stats_fields {A : Char → Bool} {tm : TM} {hi : Bool} {lt : Char} {now : Nat}
    {tm' : TM} (h : update_stats A tm hi lt now = some tm') :
    tm'.current_text = tm.current_text ∧ tm'.typed_text = tm.typed_text ∧
    tm'.started = tm.started ∧
    tm'.typed_chars = (scanLoop A tm.typed_text tm.current_text scanInit).1.typed_chars ∧
    tm'.accuracy = accOf (scanLoop A tm.typed_text tm.current_text scanInit).1.total_correct
      tm.typed_text := by
  unfold update_stats at h
  dsimp only at h
  split at h
  · split at h
    · exact Option.noConfusion h
    · split at h
      · split at h
        · exact Option.noConfusion h
        · injection h with h
          subst h
          exact ⟨rfl, rfl, rfl, rfl, rfl⟩
      · injection h with h
        subst h
        exact ⟨rfl, rfl, rfl, rfl, rfl⟩
  · split at h
    · exact Option.noConfusion h
    · split at h
      · split at h
        · exact Option.noConfusion h
        · split at h
          · exact Option.noConfusion h
          · injection h with h
            subst h
            exact ⟨rfl, rfl, rfl, rfl, rfl⟩
      · injection h with h
        subst h
        exact ⟨rfl, rfl, rfl, rfl, rfl⟩

/-- The `accuracy` field holds exactly the value the last stats
recomputation would store for the current buffers. -/
def AccConsistent (A : Char → Bool) (tm : TM) : Prop :=
  tm.accuracy =
    accOf (scanLoop A tm.typed_text tm.current_text scanInit).1.total_correct tm.typed_text

/-- Invariant of reachable states: before the first keystroke the stored
accuracy is still the initial `0.0`; afterwards it is stats-consistent. -/
def AccInv (A : Char → Bool) (tm : TM) : Prop :=
  (tm.started = false ∧ tm.typed_text = [] ∧ tm.accuracy = some 0) ∨
  (tm.started = true ∧ AccConsistent A tm)

theorem type_char_AccInv {A : Char → Bool} {tm tm' : TM} {c : Char} {now : Nat}
    (hne : tm.current_text ≠ []) (hinv : AccInv A tm)
    (h : type_char A tm c now = some tm') :
    AccInv A tm' ∧ tm'.current_text = tm.current_text := by
  unfold type_char at h
  dsimp only at h
  split at h
  · obtain ⟨h1, h2, h3, h4, h5⟩ := update_stats_fields h
    dsimp only at h1 h2 h3 h4 h5
    rw [tmStart_current] at h1
    rw [tmStart_typed] at h2 h5
    rw [tmStart_started] at h3
    refine ⟨Or.inr ⟨h3, ?_⟩, h1⟩
    unfold AccConsistent
    rw [h5, h1, h2]
    rw [tmStart_current]
  · rename_i hguard
    injection h with h
    subst h
    cases hinv with
    | inl hl =>
      obtain ⟨hs, hty, hacc⟩ := hl
      exact absurd hguard (by
        rw [tmStart_typed, tmStart_current, hty, utf8Len_nil]
        simp only [not_not]
        exact Nat.pos_of_ne_zero (fun hc => hne (utf8Len_eq_zero.mp hc)))
    | inr hr =>
      obtain ⟨hs, hacc⟩ := hr
      rw [tmStart_of_started now hs]
      exact ⟨Or.inr ⟨hs, hacc⟩, rfl⟩

theorem del_char_AccInv {A : Char → Bool} {tm tm' : TM} (hinv : AccInv A tm)
    (h : del_char A tm = some tm') :
    AccInv A tm' ∧ tm'.current_text = tm.current_text := by
  unfold del_char at h
  split at h
  · injection h with h
    subst h
    exact ⟨hinv, rfl⟩
  · rename_i c hlast
    obtain ⟨h1, h2, h3, h4, h5⟩ := update_stats_fields h
    dsimp only at h1 h2 h3 h4 h5
    cases hinv with
    | inl hl =>
      obtain ⟨hs, hty, hacc⟩ := hl
      rw [hty] at hlast
      exact Option.noConfusion hlast
    | inr hr =>
      obtain ⟨hs, hacc⟩ := hr
      refine ⟨Or.inr ⟨h3.trans hs, ?_⟩, h1⟩
      unfold AccConsistent
      rw [h5, h1, h2]

theorem reach_AccInv {A : Char → Bool} {t : List Char} {tm : TM} (ht : t ≠ [])
    (hr : Reach A t tm) : AccInv A tm ∧ tm.current_text = t := by
  induction hr with
  | init => exact ⟨Or.inl ⟨rfl, rfl, rfl⟩, rfl⟩
  | type tm c now tm' hstep heq ih =>
    obtain ⟨hinv, hcur⟩ := ih
    have hne : tm.current_text ≠ [] := by rw [hcur]; exact ht
    have hh := type_char_AccInv hne hinv heq
    exact ⟨hh.1, hh.2.trans hcur⟩
  | del tm tm' hstep heq ih =>
    obtain ⟨hinv, hcur⟩ := ih
    have hh := del_char_AccInv hinv heq
    exact ⟨hh.1, hh.2.trans hcur⟩

/-- C4 amended: in every reachable state that precedes the first keystroke,
`get_accuracy` returns the defined value `0` even though `typed` is empty
(the initial `accuracy` is the f32 value `0.0`, refuting the claim's
"iff"); in every reachable state after the first keystroke, `get_accuracy`
is undefined exactly when `typed` is empty; and every value it ever
returns lies in `[0, 1]`. -/
theorem c4_amended (A : Char → Bool) (t : List Char) (tm : TM)
    (ht : t ≠ []) (hr : Reach A t tm) :
    (tm.started = false → get_accuracy tm = some 0 ∧ tm.typed_text = []) ∧
    (tm.started = true → (get_accuracy tm = none ↔ tm.typed_text = [])) ∧
    (∀ q, get_accuracy tm = some q → 0 ≤ q ∧ q ≤ 1) := by
  obtain ⟨hinv, -⟩ := reach_AccInv ht hr
  unfold get_accuracy
  cases hinv with
  | inl h =>
    obtain ⟨hs, hty, hacc⟩ := h
    refine ⟨fun _ => ⟨hacc, hty⟩, fun hs1 => absurd (hs.symm.trans hs1) (by simp), ?_⟩
    intro q hq
    rw [hacc] at hq
    injection hq with hq
    subst hq
    norm_num
  | inr h =>
    obtain ⟨hs, hacc⟩ := h
    unfold AccConsistent at hacc
    refine ⟨fun hs0 => absurd (hs.symm.trans hs0) (by simp), fun _ => ?_, ?_⟩
    · rw [hacc]
      unfold accOf
      constructor
      · intro hn
        by_contra hne
        rw [if_neg (fun hz => hne (utf8Len_eq_zero.mp hz))] at hn
        exact Option.noConfusion hn
      · intro he
        rw [if_pos (by rw [he]; rfl)]
    · intro q hq
      rw [hacc] at hq
      unfold accOf at hq
      by_cases hz : utf8Len tm.typed_text = 0
      · rw [if_pos hz] at hq
        exact Option.noConfusion hq
      · rw [if_neg hz] at hq
        injection hq with hq
        subst hq
        have htot : (scanLoop A tm.typed_text tm.current_text scanInit).1.total_correct ≤
            utf8Len tm.typed_text := by
          have h1 := scanLoop_total_le A tm.typed_text tm.current_text scanInit
          have h2 := length_le_utf8Len tm.typed_text
          have h3 : scanInit.total_correct = 0 := rfl
          omega
        have hpos : (0 : ℚ) < (utf8Len tm.typed_text : ℚ) := by
          exact_mod_cast Nat.pos_of_ne_zero hz
        constructor
        · positivity
        · rw [div_le_one hpos]
          exact_mod_cast htot

/-- Witness for the amended C4: the hypotheses are satisfiable, e.g. by the
freshly constructed attempt on the target `"a"`. -/
theorem c4_amended_witness :
    get_accuracy (initTM ['a']) = some 0 ∧ (initTM ['a']).typed_text = [] :=
  (c4_amended Char.isAlphanum ['a'] (initTM ['a']) (by simp) Reach.init).1 rfl

/-- C3 fails as stated: from the freshly constructed attempt on target
`"a"`, typing the wrong character `'x'` and immediately deleting it leaves
the target letter's error-count at 1 (it was 0) and leaves `accuracy`
undefined (it was the defined value 0): neither the Ledger error count nor
`accuracy` is restored. -/
theorem c3_counterexample :
    (Option.bind (type_char Char.isAlphanum (initTM ['a']) 'x' 0)
        (fun s => del_char Char.isAlphanum s)).map
      (fun s => (get_accuracy s, errorsOf s 'a')) = some (none, 1) ∧
    (get_accuracy (initTM ['a']), errorsOf (initTM ['a']) 'a') = (some 0, 0) := by
  exact ⟨rfl, rfl⟩

theorem scanLoop_last (A : Char → Bool) : ∀ (typed text : List Char) (st : ScanSt),
    typed ≠ [] → typed.length ≤ text.length →
    some (scanLoop A typed text st).1.last_typed_real = text.get? (typed.length - 1)
  | [], _, _, hne, _ => absurd rfl hne
  | _ :: typed, [], _, _, hlen => by simp at hlen
  | t :: typed, c :: text, st, _, hlen => by
    rw [scanLoop]
    cases typed with
    | nil =>
      rw [scanLoop]
      simp [scanStep_last]
    | cons t2 ty2 =>
      have ih := scanLoop_last A (t2 :: ty2) text (scanStep A t c st) (by simp) (by
        simp only [List.length_cons] at hlen ⊢
        omega)
      rw [ih]
      show List.get? text ((t2 :: ty2).length - 1) = List.get? (c :: text) ((t :: t2 :: ty2).length - 1)
      simp only [List.length_cons, Nat.add_sub_cancel]
      rfl

theorem update_stats_insert_matched {A : Char → Bool} {tm : TM} {now lt0 : Nat} {k : Char}
    (hk : (scanLoop A tm.typed_text tm.current_text scanInit).1.last_typed_real = k)
    (hk0 : k ≠ '\x00') (hlt : tm.last_type = some lt0) :
    update_stats A tm true k now =
      some { tm with
        typed_chars := (scanLoop A tm.typed_text tm.current_text scanInit).1.typed_chars,
        typed_words := (scanLoop A tm.typed_text tm.current_text scanInit).1.typed_words,
        accuracy := accOf (scanLoop A tm.typed_text tm.current_text scanInit).1.total_correct
          tm.typed_text,
        last_type := some now,
        letters := Function.update tm.letters k
          (some ⟨((tm.letters k).getD ⟨0, 0, 0⟩).duration + (now - lt0),
                 ((tm.letters k).getD ⟨0, 0, 0⟩).count + 1,
                 ((tm.letters k).getD ⟨0, 0, 0⟩).errors⟩) } := by
  unfold update_stats
  dsimp only
  rw [hk, hlt]
  rw [if_pos rfl, if_neg hk0, if_pos rfl]

theorem update_stats_insert_mismatch {A : Char → Bool} {tm : TM} {now : Nat} {lt k : Char}
    (hk : (scanLoop A tm.typed_text tm.current_text scanInit).1.last_typed_real = k)
    (hk0 : k ≠ '\x00') (hne : lt ≠ k) :
    update_stats A tm true lt now =
      some { tm with
        typed_chars := (scanLoop A tm.typed_text tm.current_text scanInit).1.typed_chars,
        typed_words := (scanLoop A tm.typed_text tm.current_text scanInit).1.typed_words,
        accuracy := accOf (scanLoop A tm.typed_text tm.current_text scanInit).1.total_correct
          tm.typed_text,
        last_type := some now,
        letters := Function.update tm.letters k
          (some ⟨((tm.letters k).getD ⟨0, 0, 0⟩).duration,
                 ((tm.letters k).getD ⟨0, 0, 0⟩).count,
                 ((tm.letters k).getD ⟨0, 0, 0⟩).errors + 1⟩) } := by
  unfold update_stats
  dsimp only
  rw [hk]
  rw [if_pos rfl, if_neg hk0, if_neg hne]

theorem update_stats_delete_matched {A : Char → Bool} {tm : TM} {now : Nat} {c2 : Char}
    {rest : List Char} {info : LetterInfo}
    (hsc : (scanLoop A tm.typed_text tm.current_text scanInit).2 = c2 :: rest)
    (hinfo : tm.letters c2 = some info) (hcnt : info.count ≠ 0) :
    update_stats A tm false c2 now =
      some { tm with
        typed_chars := (scanLoop A tm.typed_text tm.current_text scanInit).1.typed_chars,
        typed_words := (scanLoop A tm.typed_text tm.current_text scanInit).1.typed_words,
        accuracy := accOf (scanLoop A tm.typed_text tm.current_text scanInit).1.total_correct
          tm.typed_text,
        letters := Function.update tm.letters c2
          (some ⟨info.duration, info.count - 1, info.errors⟩) } := by
  unfold update_stats
  dsimp only
  rw [hsc]
  rw [if_neg (by simp)]
  dsimp only
  rw [if_pos rfl, hinfo]
  dsimp only
  rw [if_neg hcnt]

theorem update_stats_delete_mismatch {A : Char → Bool} {tm : TM} {now : Nat} {lt c2 : Char}
    {rest : List Char}
    (hsc : (scanLoop A tm.typed_text tm.current_text scanInit).2 = c2 :: rest)
    (hne : lt ≠ c2) :
    update_stats A tm false lt now =
      some { tm with
        typed_chars := (scanLoop A tm.typed_text tm.current_text scanInit).1.typed_chars,
        typed_words := (scanLoop A tm.typed_text tm.current_text scanInit).1.typed_words,
        accuracy := accOf (scanLoop A tm.typed_text tm.current_text scanInit).1.total_correct
          tm.typed_text } := by
  unfold update_stats
  dsimp only
  rw [hsc]
  rw [if_neg (by simp)]
  dsimp only
  rw [if_neg hne]

theorem drop_cons_get? {α : Type} : ∀ (l : List α) (n : Nat) {x : α} {xs : List α},
    l.drop n = x :: xs → l.get? n = some x ∧ n < l.length
  | [], n, x, xs, h => by simp at h
  | a :: l, 0, x, xs, h => by
    simp only [List.drop_zero] at h
    injection h with h1 h2
    subst h1
    simp
  | a :: l, n + 1, x, xs, h => by
    simp only [List.drop_succ_cons] at h
    have := drop_cons_get? l n h
    simpa using this

/-- Ledger shape of a successful insert-mode `update_stats`: the entry for
the last scanned target code point gets its correct-count (matched) or its
error-count (mismatched) bumped; `last_type` is refreshed. -/
theorem update_stats_insert_dest {A : Char → Bool} {tm : TM} {lt : Char} {now : Nat} {tm' : TM}
    (h : update_stats A tm true lt now = some tm') :
    (lt = (scanLoop A tm.typed_text tm.current_text scanInit).1.last_typed_real ∧
      ∃ lt0, tm.last_type = some lt0 ∧
        tm'.letters = Function.update tm.letters
          (scanLoop A tm.typed_text tm.current_text scanInit).1.last_typed_real
          (some ⟨((tm.letters
              (scanLoop A tm.typed_text tm.current_text scanInit).1.last_typed_real).getD
                ⟨0, 0, 0⟩).duration + (now - lt0),
            ((tm.letters
              (scanLoop A tm.typed_text tm.current_text scanInit).1.last_typed_real).getD
                ⟨0, 0, 0⟩).count + 1,
            ((tm.letters
              (scanLoop A tm.typed_text tm.current_text scanInit).1.last_typed_real).getD
                ⟨0, 0, 0⟩).errors⟩)) ∨
    (lt ≠ (scanLoop A tm.typed_text tm.current_text scanInit).1.last_typed_real ∧
      tm'.letters = Function.update tm.letters
        (scanLoop A tm.typed_text tm.current_text scanInit).1.last_typed_real
        (some ⟨((tm.letters
            (scanLoop A tm.typed_text tm.current_text scanInit).1.last_typed_real).getD
              ⟨0, 0, 0⟩).duration,
          ((tm.letters
            (scanLoop A tm.typed_text tm.current_text scanInit).1.last_typed_real).getD
              ⟨0, 0, 0⟩).count,
          ((tm.letters
            (scanLoop A tm.typed_text tm.current_text scanInit).1.last_typed_real).getD
              ⟨0, 0, 0⟩).errors + 1⟩)) := by
  unfold update_stats at h
  dsimp only at h
  split at h
  · split at h
    · exact Option.noConfusion h
    · split at h
      · rename_i hmatch
        split at h
        · exact Option.noConfusion h
        · rename_i lt0 hsome
          injection h with h
          subst h
          exact Or.inl ⟨hmatch, lt0, hsome, rfl⟩
      · rename_i hmatch
        injection h with h
        subst h
        exact Or.inr ⟨hmatch, rfl⟩
  · rename_i hfalse
    exact absurd rfl hfalse

/-- Ledger shape of a successful delete-mode `update_stats`: the remaining
target iterator is non-empty, and the entry for its head has its
correct-count decremented exactly when the deleted character matched. -/
theorem update_stats_delete_dest {A : Char → Bool} {tm : TM} {lt : Char} {now : Nat} {tm' : TM}
    (h : update_stats A tm false lt now = some tm') :
    ∃ c2 rest, (scanLoop A tm.typed_text tm.current_text scanInit).2 = c2 :: rest ∧
      tm'.last_type = tm.last_type ∧
      ((lt = c2 ∧ ∃ info, tm.letters c2 = some info ∧ info.count ≠ 0 ∧
          tm'.letters = Function.update tm.letters c2
            (some ⟨info.duration, info.count - 1, info.errors⟩)) ∨
       (lt ≠ c2 ∧ tm'.letters = tm.letters)) := by
  unfold update_stats at h
  dsimp only at h
  split at h
  · rename_i htrue
    exact absurd htrue (by simp)
  · split at h
    · exact Option.noConfusion h
    · rename_i c2 rest heq
      split at h
      · rename_i hmatch
        split at h
        · exact Option.noConfusion h
        · rename_i info hsome
          split at h
          · exact Option.noConfusion h
          · rename_i hcnt
            injection h with h
            subst h
            exact ⟨c2, rest, heq, rfl, Or.inl ⟨hmatch, info, hsome, hcnt, rfl⟩⟩
      · rename_i hmatch
        injection h with h
        subst h
        exact ⟨c2, rest, heq, rfl, Or.inr ⟨hmatch, rfl⟩⟩

/-- C3 amended: from any state whose `typed_chars` (correct_count) and
`accuracy` agree with the stats recomputation (true of every reachable
state after an edit; the pristine initial state violates it because its
stored accuracy is `0.0`), if the byte-length guard admits one more
character, the next target code point exists, and `type_char c` followed
by `delete_char` both return normally, then `correct_count`, `accuracy`
and every Ledger correct-count are restored exactly; the Ledger
error-counts are restored when `c` matches the next target code point,
while a mismatch leaves that code point's error-count one higher (the
forward-only duration is excluded, as in the claim). -/
theorem c3_amended (A : Char → Bool) (tm tm1 tm2 : TM) (c k : Char) (krest : List Char)
    (now : Nat)
    (hlen : utf8Len tm.typed_text < utf8Len tm.current_text)
    (hk : tm.current_text.drop tm.typed_text.length = k :: krest)
    (hTC : tm.typed_chars = (scanLoop A tm.typed_text tm.current_text scanInit).1.typed_chars)
    (hAcc : AccConsistent A tm)
    (h1 : type_char A tm c now = some tm1)
    (h2 : del_char A tm1 = some tm2) :
    tm2.typed_chars = tm.typed_chars ∧
    tm2.accuracy = tm.accuracy ∧
    (∀ ch, countOf tm2 ch = countOf tm ch) ∧
    (c = k → ∀ ch, errorsOf tm2 ch = errorsOf tm ch) ∧
    (c ≠ k → errorsOf tm2 k = errorsOf tm k + 1 ∧
      ∀ ch, ch ≠ k → errorsOf tm2 ch = errorsOf tm ch) := by
  unfold AccConsistent at hAcc
  unfold type_char at h1
  dsimp only at h1
  rw [if_pos (by rw [tmStart_typed, tmStart_current]; exact hlen)] at h1
  obtain ⟨hcur1, htyp1, -, -, -⟩ := update_stats_fields h1
  dsimp only at hcur1 htyp1
  rw [tmStart_current] at hcur1
  rw [tmStart_typed] at htyp1
  have hins := update_stats_insert_dest h1
  dsimp only at hins
  rw [tmStart_typed, tmStart_current, tmStart_letters] at hins
  obtain ⟨hget, hn⟩ := drop_cons_get? tm.current_text tm.typed_text.length hk
  have hlastK : (scanLoop A (tm.typed_text ++ [c]) tm.current_text scanInit).1.last_typed_real
      = k := by
    have hlast := scanLoop_last A (tm.typed_text ++ [c]) tm.current_text scanInit (by simp)
      (by simp only [List.length_append, List.length_cons, List.length_nil]; omega)
    rw [show (tm.typed_text ++ [c]).length - 1 = tm.typed_text.length by simp] at hlast
    rw [hget] at hlast
    exact Option.some_inj.mp hlast
  rw [hlastK] at hins
  unfold del_char at h2
  rw [htyp1] at h2
  rw [List.getLast?_concat] at h2
  dsimp only at h2
  rw [List.dropLast_concat] at h2
  obtain ⟨hcur2, -, -, hTC2, hAcc2⟩ := update_stats_fields h2
  dsimp only at hcur2 hTC2 hAcc2
  rw [hcur1] at hcur2 hTC2 hAcc2
  have hdel := update_stats_delete_dest h2
  dsimp only at hdel
  rw [hcur1] at hdel
  obtain ⟨c2, rest2, hsc2, -, hdel⟩ := hdel
  rw [scanLoop_snd] at hsc2
  rw [hk] at hsc2
  injection hsc2 with hc2 hrest2
  subst hc2
  refine ⟨hTC2.trans hTC.symm, hAcc2.trans hAcc.symm, ?_⟩
  cases hins with
  | inl hmatched =>
    obtain ⟨hck, lt0, hlt0, hlet1⟩ := hmatched
    cases hdel with
    | inr hdm => exact absurd hck hdm.1
    | inl hdm =>
      obtain ⟨-, info, hinfo, hcnt, hlet2⟩ := hdm
      rw [hlet1, Function.update_same] at hinfo
      injection hinfo with hinfo
      subst hinfo
      rw [hlet1, Function.update_idem] at hlet2
      refine ⟨?_, ?_, ?_⟩
      · intro ch
        unfold countOf
        rw [hlet2]
        by_cases hch : ch = k
        · subst hch
          rw [Function.update_same]
          simp
        · rw [Function.update_noteq hch]
      · intro _ ch
        unfold errorsOf
        rw [hlet2]
        by_cases hch : ch = k
        · subst hch
          rw [Function.update_same]
          rfl
        · rw [Function.update_noteq hch]
      · intro hne
        exact absurd hck hne
  | inr hmis =>
    obtain ⟨hne, hlet1⟩ := hmis
    cases hdel with
    | inl hdm => exact absurd hdm.1 hne
    | inr hdm =>
      obtain ⟨-, hlet2⟩ := hdm
      rw [hlet1] at hlet2
      refine ⟨?_, ?_, ?_⟩
      · intro ch
        unfold countOf
        rw [hlet2]
        by_cases hch : ch = k
        · subst hch
          rw [Function.update_same]
          rfl
        · rw [Function.update_noteq hch]
      · intro hck
        exact absurd hck hne
      · intro _
        constructor
        · unfold errorsOf
          rw [hlet2, Function.update_same]
          rfl
        · intro ch hch
          unfold errorsOf
          rw [hlet2, Function.update_noteq hch]

/-- A concrete stats-consistent state for the C3 witness: the result of
typing `'a'` correctly against the target `"ab"`. -/
def c3Sample : TM :=
  { current_text := ['a', 'b'], typed_text := ['a'], started := true, last_type := some 0,
    typed_chars := 1, typed_words := 0, accuracy := some 1,
    letters := Function.update (fun _ => none) 'a' (some ⟨0, 1, 0⟩) }

/-- Witness for the amended C3: its hypotheses hold at a concrete
stats-consistent state; typing the mismatching `'x'` (the pending target
code point is `'b'`) and deleting it restores `correct_count`, `accuracy`
and the correct-counts while leaving `'b'`'s error-count bumped. -/
theorem c3_amended_witness :
    ∃ tm1 tm2, type_char Char.isAlphanum c3Sample 'x' 5 = some tm1 ∧
      del_char Char.isAlphanum tm1 = some tm2 ∧
      tm2.typed_chars = c3Sample.typed_chars ∧ tm2.accuracy = c3Sample.accuracy ∧
      countOf tm2 'b' = countOf c3Sample 'b' ∧
      errorsOf tm2 'b' = errorsOf c3Sample 'b' + 1 := by
  obtain ⟨tm2, hbind⟩ : ∃ x, Option.bind (type_char Char.isAlphanum c3Sample 'x' 5)
      (del_char Char.isAlphanum) = some x := ⟨_, rfl⟩
  obtain ⟨tm1, h1, h2⟩ := Option.bind_eq_some.mp hbind
  have hAcc : AccConsistent Char.isAlphanum c3Sample := by
    unfold AccConsistent
    have ht : (scanLoop Char.isAlphanum c3Sample.typed_text c3Sample.current_text
        scanInit).1.total_correct = 1 := rfl
    rw [ht]
    show some 1 = accOf 1 ['a']
    unfold accOf
    have hu : utf8Len ['a'] = 1 := rfl
    rw [hu]
    norm_num
  have hmain := c3_amended Char.isAlphanum c3Sample tm1 tm2 'x' 'b' [] 5
    (by decide) (by decide) (by decide) hAcc h1 h2
  exact ⟨tm1, tm2, h1, h2, hmain.1, hmain.2.1, hmain.2.2.1 'b',
    (hmain.2.2.2.2 (by decide)).1⟩

/-- Model of the `f32` values the resampler manipulates: exact rationals
plus the IEEE special values produced by dividing by zero. -/
inductive RF where
  | nan : RF
  | inf : RF
  | ninf : RF
  | val : ℚ → RF
deriving DecidableEq

/-- IEEE division on the modelled values (`x / +0` for `x ≷ 0` gives the
infinities, `0 / 0` gives NaN; all zeros here are `+0`). -/
def RF.div : RF → RF → RF
  | nan, _ => nan
  | _, nan => nan
  | inf, inf => nan
  | inf, ninf => nan
  | ninf, inf => nan
  | ninf, ninf => nan
  | inf, val q => if q < 0 then ninf else inf
  | ninf, val q => if q < 0 then inf else ninf
  | val _, inf => val 0
  | val _, ninf => val 0
  | val a, val b =>
    if b = 0 then (if a = 0 then nan else if 0 < a then inf else ninf) else val (a / b)

/-- IEEE multiplication on the modelled values. -/
def RF.mul : RF → RF → RF
  | nan, _ => nan
  | _, nan => nan
  | inf, inf => inf
  | inf, ninf => ninf
  | ninf, inf => ninf
  | ninf, ninf => inf
  | inf, val q => if q = 0 then nan else if 0 < q then inf else ninf
  | val q, inf => if q = 0 then nan else if 0 < q then inf else ninf
  | ninf, val q => if q = 0 then nan else if 0 < q then ninf else inf
  | val q, ninf => if q = 0 then nan else if 0 < q then ninf else inf
  | val a, val b => val (a * b)

/-- `f32::ceil`. -/
def RF.ceil : RF → RF
  | nan => nan
  | inf => inf
  | ninf => ninf
  | val q => val ((⌈q⌉ : ℤ) : ℚ)

/-- The saturating `as usize` cast: NaN and negative values go to 0, `+∞`
to `usize::MAX`, positive finite values truncate (saturating above). -/
def RF.toUsize : RF → Nat
  | nan => 0
  | ninf => 0
  | inf => 2 ^ 64 - 1
  | val q => if q ≤ 0 then 0 else min (⌊q⌋).toNat (2 ^ 64 - 1)

/-- The `max` scan of `get_improvement`: starts from `0.0` and keeps any
strictly larger cpm. -/
def maxCpm (cpms : List ℚ) : ℚ := cpms.foldl (fun m x => if x > m then x else m) 0

/-- The `for i in idx1..idx2 + 1 { sum += raw_data[i].cpm }` loop; an
out-of-bounds index is a panic. -/
def sumRangeGo (cpms : List ℚ) : Nat → Nat → ℚ → Except Unit ℚ
  | 0, _, acc => Except.ok acc
  | fuel + 1, j, acc =>
    match cpms.get? j with
    | none => Except.error ()
    | some x => sumRangeGo cpms fuel (j + 1) (acc + x)

/-- Sum of `cpms[lo..=hi]`, as the source's loop computes it. -/
def sumRange (cpms : List ℚ) (lo hi : Nat) : Except Unit ℚ :=
  sumRangeGo cpms (hi + 1 - lo) lo 0

/-- One iteration of the `for i in 0..scale_x` loop of
`TextManager::get_improvement` (`mx` is the precomputed max).  In the
upsample branch, `data_len = 0` makes both Rust profiles panic (debug: the
`data_len - 1` underflow; release: the wrapped value leads to indexing the
empty series), so it is modelled as a panic; with `data_len ≥ 1` that
branch implies `scale_x ≥ 2` and its arithmetic stays finite, so plain
rational arithmetic is faithful there.  The downsample branch can divide
by `scale_x - 1 = 0`, so its index arithmetic runs in `RF`. -/
def bucketAt (cpms : List ℚ) (sx sy : Nat) (mx : ℚ) (i : Nat) : Except Unit Nat :=
  let dl := cpms.length
  if dl = sx then
    match cpms.get? i with
    | none => Except.error ()
    | some cpm => Except.ok ((((RF.val cpm).div (RF.val mx)).mul (RF.val (sy : ℚ))).toUsize)
  else if dl < sx then
    if dl = 0 then Except.error ()
    else
      let fIdx : ℚ := (i : ℚ) / ((sx - 1 : Nat) : ℚ) * ((dl - 1 : Nat) : ℚ)
      match cpms.get? (⌊fIdx⌋).toNat, cpms.get? (⌈fIdx⌉).toNat with
      | some c1, some c2 =>
        let dist := fIdx - ((⌊fIdx⌋ : ℤ) : ℚ)
        let cpm := (1 - dist) * c1 + dist * c2
        Except.ok ((((RF.val cpm).div (RF.val mx)).mul (RF.val (sy : ℚ))).toUsize)
      | _, _ => Except.error ()
  else
    let a : Nat := (max 0 ((i : Int) - 1)).toNat
    let b : Nat := min (sx - 1) (i + 1)
    let idx1 := (((RF.val (a : ℚ)).div (RF.val ((sx - 1 : Nat) : ℚ))).mul
      (RF.val ((dl - 1 : Nat) : ℚ))).toUsize
    let idx2p := (((((RF.val (b : ℚ)).div (RF.val ((sx - 1 : Nat) : ℚ))).mul
      (RF.val ((dl - 1 : Nat) : ℚ))).ceil).toUsize)
    let idx2 := if dl ≤ idx2p then dl - 1 else idx2p
    if idx2 + 1 < idx1 then Except.error ()
    else
      match sumRange cpms idx1 idx2 with
      | Except.error e => Except.error e
      | Except.ok s =>
        let cpm := (RF.val s).div (RF.val ((idx2 + 1 - idx1 : Nat) : ℚ))
        Except.ok (((cpm.div (RF.val mx)).mul (RF.val (sy : ℚ))).toUsize)

/-- The bucket loop of `get_improvement`, pushing one value per `i`. -/
def resampleGo (cpms : List ℚ) (sx sy : Nat) (mx : ℚ) : List Nat → Except Unit (List Nat)
  | [] => Except.ok []
  | i :: is =>
    match bucketAt cpms sx sy mx i with
    | Except.error e => Except.error e
    | Except.ok v =>
      match resampleGo cpms sx sy mx is with
      | Except.error e => Except.error e
      | Except.ok vs => Except.ok (v :: vs)

/-- The resampling core of `TextManager::get_improvement`, applied to the
cpm series already read from the log. -/
def resample (cpms : List ℚ) (sx sy : Nat) : Except Unit (List Nat) :=
  resampleGo cpms sx sy (maxCpm cpms) (List.range sx)

/-- One parsed record of the Historical Log (the source's `DataPoint`). -/
structure DataPoint where
  cpm : ℚ
  time : Nat
  accuracy : ℚ
  wpm : ℚ
deriving DecidableEq

/-- `str::split(sep)`-style splitting: `n` separators yield `n + 1`
pieces, empty pieces included. -/
def splitOnChar (sep : Char) : List Char → List (List Char)
  | [] => [[]]
  | x :: xs =>
    match splitOnChar sep xs with
    | [] => [[]]
    | h :: t => if x = sep then [] :: h :: t else (x :: h) :: t

/-- Strip one trailing carriage return (the CRLF handling of
`BufRead::lines`). -/
def stripCR (l : List Char) : List Char :=
  if l.getLast? = some '\r' then l.dropLast else l

/-- `BufRead::lines` on the whole file content: split at `'\n'`; the final
piece is the unterminated remainder (dropped when empty); every
newline-terminated line has a trailing `'\r'` stripped. -/
def linesOf (content : List Char) : List (List Char) :=
  let parts := splitOnChar '\n' content
  (parts.dropLast.map stripCR) ++ (if parts.getLastD [] = [] then [] else [parts.getLastD []])

/-- One line of `get_raw_improvement`: split at `' '`, read fields 0–3
(extra fields are ignored, exactly as the source's `vec.get(0)` ..
`vec.get(3)` do), and parse them.  The stdlib numeric parsers (`u64` and
`f32` `FromStr`) are external to the repository and are parameters `pu`
and `pf`. -/
def parseLine (pu : List Char → Option Nat) (pf : List Char → Option ℚ)
    (line : List Char) : Option DataPoint :=
  let vec := splitOnChar ' ' line
  match vec.get? 0, vec.get? 1, vec.get? 2, vec.get? 3 with
  | some t, some a, some w, some c =>
    match pu t, pf a, pf w, pf c with
    | some tv, some av, some wv, some cv => some ⟨cv, tv, av, wv⟩
    | _, _, _, _ => none
  | _, _, _, _ => none

/-- The line loop of `get_raw_improvement` (early `return None` on any
parse failure). -/
def readLines (pu : List Char → Option Nat) (pf : List Char → Option ℚ) :
    List (List Char) → Option (List DataPoint)
  | [] => some []
  | l :: ls =>
    match parseLine pu pf l with
    | none => none
    | some d =>
      match readLines pu pf ls with
      | none => none
      | some ds => some (d :: ds)

/-- `TextManager::get_raw_improvement`: `none` when the file cannot be
opened (`file = none`), otherwise the atomically parsed record list. -/
def get_raw_improvement (pu : List Char → Option Nat) (pf : List Char → Option ℚ)
    (file : Option (List Char)) : Option (List DataPoint) :=
  match file with
  | none => none
  | some content => readLines pu pf (linesOf content)

/-- `TextManager::get_improvement`: a panic is `Except.error ()`, the
"no data" result (`None`) is `Except.ok none`. -/
def get_improvement (pu : List Char → Option Nat) (pf : List Char → Option ℚ)
    (file : Option (List Char)) (sx sy : Nat) : Except Unit (Option (List Nat)) :=
  match get_raw_improvement pu pf file with
  | none => Except.ok none
  | some data =>
    match resample (data.map (fun d => d.cpm)) sx sy with
    | Except.error e => Except.error e
    | Except.ok out => Except.ok (some out)

/-- One completed run's metrics as `end_run` computes them. -/
structure RunRecord where
  time : Nat
  accuracy : ℚ
  wpm : ℚ
  cpm : ℚ

/-- The log line `format!("{:?} {:?} {:?} {:?}\n", now, acc, wpm, cpm)`;
the stdlib numeric formatters (`{:?}` on `u64` and `f32`) are parameters
`fu` and `ff`. -/
def recordLine (fu : Nat → List Char) (ff : ℚ → List Char) (r : RunRecord) : List Char :=
  fu r.time ++ ' ' :: (ff r.accuracy ++ ' ' :: (ff r.wpm ++ ' ' :: (ff r.cpm ++ ['\n'])))

/-- `TextManager::end_run` acting on the log content: append one line when
all three metrics are defined, otherwise do nothing. -/
def end_run (fu : Nat → List Char) (ff : ℚ → List Char) (content : List Char)
    (now : Nat) (acc wpm cpm : Option ℚ) : List Char :=
  match acc, wpm, cpm with
  | some a, some w, some c => content ++ recordLine fu ff ⟨now, a, w, c⟩
  | _, _, _ => content

/-- Appending a list of well-formed records by consecutive `end_run`s. -/
def appendRuns (fu : Nat → List Char) (ff : ℚ → List Char) (content : List Char)
    (rs : List RunRecord) : List Char :=
  rs.foldl (fun acc r => end_run fu ff acc r.time (some r.accuracy) (some r.wpm) (some r.cpm))
    content

/-- Trivial parser stand-ins for evaluations whose input never reaches the
parsers. -/
def pu0 : List Char → Option Nat := fun _ => none

/-- Trivial `f32` parser stand-in (see `pu0`). -/
def pf0 : List Char → Option ℚ := fun _ => none

/-- C6: with a readable but empty log (`n = 0`) the resampler does not
report "no data": at `scale_x = 2` it panics instead (the `data_len - 1`
underflow, resp. the out-of-bounds index on the empty series, in the
upsample branch).  The second conjunct documents that the empty log is
indeed read successfully as zero records. -/
theorem c6_bug_eval :
    get_improvement pu0 pf0 (some []) 2 10 = Except.error () ∧
    get_raw_improvement pu0 pf0 (some []) = some [] := by
  exact ⟨rfl, rfl⟩

theorem readLines_none_of_mem (pu : List Char → Option Nat) (pf : List Char → Option ℚ)
    (ls : List (List Char)) (l : List Char) (hl : l ∈ ls)
    (hp : parseLine pu pf l = none) : readLines pu pf ls = none := by
  induction ls with
  | nil => cases hl
  | cons l0 ls ih =>
    unfold readLines
    rcases List.mem_cons.mp hl with h | h
    · rw [← h, hp]
    · cases hpl : parseLine pu pf l0 with
      | none => rfl
      | some d =>
        simp only [ih h]

/-- C7: whenever the Historical Log is unreadable, or some line of it
fails to parse as a complete record, `get_improvement` reports exactly the
"no data" result for every scale — never a partial series. -/
theorem c7_atomic_failure (pu : List Char → Option Nat) (pf : List Char → Option ℚ)
    (file : Option (List Char))
    (h : file = none ∨ ∃ content, file = some content ∧
      ∃ l ∈ linesOf content, parseLine pu pf l = none) (sx sy : Nat) :
    get_improvement pu pf file sx sy = Except.ok none := by
  rcases h with h | ⟨content, hfile, l, hl, hp⟩
  · subst h
    rfl
  · subst hfile
    unfold get_improvement get_raw_improvement
    dsimp only
    rw [readLines_none_of_mem pu pf _ l hl hp]

/-- Witness for C7: a one-line log `"x"` has no parseable record, and the
resampler reports "no data". -/
theorem c7_witness : get_improvement pu0 pf0 (some ['x']) 3 7 = Except.ok none :=
  c7_atomic_failure pu0 pf0 (some ['x'])
    (Or.inr ⟨['x'], rfl, ['x'], by decide, rfl⟩) 3 7

/-- The claim's formula, written from the spec's words: the maximum cpm
across all points of the series (for comparison with the code's `maxCpm`,
which seeds the scan with `0.0`). -/
def claimMax (cpms : List ℚ) : ℚ := cpms.foldl max (cpms.headD 0)

/-- The claim's formula, written from the spec's words: the exact-regime
bucket value `floor(raw[i].cpm / max_cpm * scale_y)`. -/
def claimBucket (cpms : List ℚ) (i sy : Nat) : Nat :=
  (⌊cpms.getD i 0 / claimMax cpms * (sy : ℚ)⌋).toNat

/-- The claim's formula, written from the spec's words: the claimed
`scale_x = 1` bucket, the normalized value of the most recent (last)
point. -/
def claimRecentBucket (cpms : List ℚ) (sy : Nat) : Nat :=
  (⌊cpms.getLastD 0 / claimMax cpms * (sy : ℚ)⌋).toNat

theorem maxFoldl_init_le : ∀ (l : List ℚ) (m : ℚ),
    m ≤ l.foldl (fun m x => if x > m then x else m) m
  | [], m => le_refl m
  | x :: l, m => by
    rw [List.foldl_cons]
    refine le_trans ?_ (maxFoldl_init_le l _)
    split
    · exact le_of_lt (by assumption)
    · exact le_refl m

theorem mem_le_maxFoldl : ∀ (l : List ℚ) (m x : ℚ), x ∈ l →
    x ≤ l.foldl (fun m x => if x > m then x else m) m
  | [], m, x, hx => absurd hx (List.not_mem_nil x)
  | y :: l, m, x, hx => by
    rw [List.foldl_cons]
    rcases List.mem_cons.mp hx with h | h
    · subst h
      refine le_trans ?_ (maxFoldl_init_le l _)
      split
      · exact le_refl x
      · exact le_of_not_lt (by assumption)
    · exact mem_le_maxFoldl l _ x h

theorem mem_le_maxCpm {cpms : List ℚ} {x : ℚ} (hx : x ∈ cpms) : x ≤ maxCpm cpms :=
  mem_le_maxFoldl cpms 0 x hx

theorem maxCpm_pos {cpms : List ℚ} (h : ∃ x ∈ cpms, 0 < x) : 0 < maxCpm cpms := by
  obtain ⟨x, hx, hxpos⟩ := h
  exact lt_of_lt_of_le hxpos (mem_le_maxCpm hx)

theorem maxFoldl_eq_max_foldl : ∀ (l : List ℚ) (m : ℚ),
    l.foldl (fun m x => if x > m then x else m) m = l.foldl max m
  | [], _ => rfl
  | x :: l, m => by
    rw [List.foldl_cons, List.foldl_cons, maxFoldl_eq_max_foldl l]
    congr 1
    rcases le_or_lt x m with h | h
    · rw [if_neg (not_lt.mpr h), max_eq_left h]
    · rw [if_pos h, max_eq_right (le_of_lt h)]

/-- Under nonnegative data the code's `0.0`-seeded max scan agrees with
the claim's "maximum over all points". -/
theorem claimMax_eq_maxCpm (cpms : List ℚ) (hne : cpms ≠ []) (hpos : ∀ x ∈ cpms, 0 ≤ x) :
    claimMax cpms = maxCpm cpms := by
  cases cpms with
  | nil => exact absurd rfl hne
  | cons c rest =>
    unfold claimMax maxCpm
    rw [maxFoldl_eq_max_foldl]
    simp only [List.headD_cons, List.foldl_cons]
    rw [max_self, max_eq_right (hpos c (List.mem_cons_self c rest))]

/-- The `as usize` cast of a finite value known to lie in `[0, sy]` with
`sy < 2^64` is exactly the claimed floor. -/
theorem toUsize_val_eq (q : ℚ) (sy : Nat) (h0 : 0 ≤ q) (hup : q ≤ sy) (hbig : sy < 2 ^ 64) :
    (RF.val q).toUsize = (⌊q⌋).toNat ∧ (⌊q⌋).toNat ≤ sy := by
  have hfl : ⌊q⌋ ≤ (sy : ℤ) := by
    have h := Int.floor_le_floor (α := ℚ) hup
    rwa [Int.floor_natCast] at h
  refine ⟨?_, by omega⟩
  unfold RF.toUsize
  dsimp only
  by_cases hq : q ≤ 0
  · have hq0 : q = 0 := le_antisymm hq h0
    subst hq0
    rw [if_pos hq]
    simp
  · rw [if_neg hq]
    exact min_eq_left (by omega)

/-- In the exact regime (`data_len == scale_x`) each bucket is the claimed
floor, provided the series is nonnegative with a positive maximum. -/
theorem bucketAt_exact (cpms : List ℚ) (sx sy : Nat) (hn : cpms.length = sx)
    (hpos : ∀ x ∈ cpms, 0 ≤ x) (hsome : ∃ x ∈ cpms, 0 < x) (hsy : sy < 2 ^ 64)
    (i : Nat) (hi : i < sx) :
    bucketAt cpms sx sy (maxCpm cpms) i = Except.ok (claimBucket cpms i sy) ∧
    claimBucket cpms i sy ≤ sy := by
  have hmx : 0 < maxCpm cpms := maxCpm_pos hsome
  have hne : cpms ≠ [] := by
    rintro rfl
    obtain ⟨x, hx, -⟩ := hsome
    cases hx
  have hilen : i < cpms.length := hn ▸ hi
  obtain ⟨ci, hci⟩ : ∃ ci, cpms.get? i = some ci := ⟨_, List.get?_eq_get hilen⟩
  have hci_mem : ci ∈ cpms := List.get?_mem hci
  have hge : 0 ≤ ci := hpos ci hci_mem
  have hle : ci ≤ maxCpm cpms := mem_le_maxCpm hci_mem
  have hgd : cpms.getD i 0 = ci := by
    rw [List.getD_eq_getElem?_getD, ← List.get?_eq_getElem?, hci]
    rfl
  have hq0 : 0 ≤ ci / maxCpm cpms * (sy : ℚ) :=
    mul_nonneg (div_nonneg hge (le_of_lt hmx)) (Nat.cast_nonneg sy)
  have hqup : ci / maxCpm cpms * (sy : ℚ) ≤ (sy : ℚ) := by
    calc ci / maxCpm cpms * (sy : ℚ) ≤ 1 * (sy : ℚ) := by
          apply mul_le_mul_of_nonneg_right _ (Nat.cast_nonneg sy)
          rw [div_le_one hmx]
          exact hle
    _ = (sy : ℚ) := one_mul _
  obtain ⟨hcast, hbound⟩ := toUsize_val_eq (ci / maxCpm cpms * (sy : ℚ)) sy hq0 hqup hsy
  have hcb : claimBucket cpms i sy = (⌊ci / maxCpm cpms * (sy : ℚ)⌋).toNat := by
    unfold claimBucket
    rw [claimMax_eq_maxCpm cpms hne hpos, hgd]
  refine ⟨?_, hcb ▸ hbound⟩
  unfold bucketAt
  dsimp only
  rw [if_pos hn, hci]
  have hdiv : (RF.val ci).div (RF.val (maxCpm cpms)) = RF.val (ci / maxCpm cpms) := by
    unfold RF.div
    dsimp only
    rw [if_neg (ne_of_gt hmx)]
  dsimp only
  rw [hdiv]
  show Except.ok ((RF.val (ci / maxCpm cpms * (sy : ℚ))).toUsize) = _
  rw [hcast, hcb]

/-- C5 amended: for a series of nonnegative cpm values with at least one
positive value (so that the claim's `max_cpm` is the code's max and is
nonzero) and `n = scale_x`, every output bucket is exactly the claimed
`floor(raw[i].cpm / max_cpm * scale_y)`, and every bucket lies in
`[0, scale_y]`.  (For series with negative values the claim fails; see the
counterexample.) -/
theorem c5_amended (cpms : List ℚ) (sx sy : Nat)
    (hn : cpms.length = sx) (hpos : ∀ x ∈ cpms, 0 ≤ x)
    (hsome : ∃ x ∈ cpms, 0 < x) (hsy : sy < 2 ^ 64) :
    resample cpms sx sy =
      Except.ok ((List.range sx).map (fun i => claimBucket cpms i sy)) ∧
    ∀ i ∈ List.range sx, claimBucket cpms i sy ≤ sy := by
  constructor
  · unfold resample
    have hgo : ∀ l : List Nat, (∀ i ∈ l, i < sx) →
        resampleGo cpms sx sy (maxCpm cpms) l =
          Except.ok (l.map (fun i => claimBucket cpms i sy)) := by
      intro l
      induction l with
      | nil => intro _; rfl
      | cons j l ih =>
        intro hmem
        unfold resampleGo
        rw [(bucketAt_exact cpms sx sy hn hpos hsome hsy j
          (hmem j (List.mem_cons_self j l))).1]
        rw [ih (fun i hi => hmem i (List.mem_cons_of_mem j hi))]
        rfl
    exact hgo (List.range sx) (fun i hi => List.mem_range.mp hi)
  · intro i hi
    exact (bucketAt_exact cpms sx sy hn hpos hsome hsy i (List.mem_range.mp hi)).2

/-- C5 fails as stated on a negative series: for the one-point series
`[-1]` (`n = scale_x = 1`, `scale_y = 10`) the claimed bucket
`floor(raw[0] / max_cpm * scale_y)` is `10` (the maximum over the points
is `-1`), but the code seeds its max scan with `0.0`, divides `-1` by
zero, and the `-∞ as usize` cast saturates the bucket to `0`. -/
theorem c5_counterexample :
    resample [-1] 1 10 = Except.ok [0] ∧ claimBucket [-1] 0 10 = 10 := by
  constructor
  · rfl
  · unfold claimBucket claimMax
    simp only [List.getD, List.headD_cons, List.foldl_cons, List.foldl_nil, max_self]
    norm_num
    decide

/-- Witness for the amended C5 at the series `[2]`, `scale_x = 1`,
`scale_y = 3`. -/
theorem c5_amended_witness :
    resample [2] 1 3 = Except.ok [claimBucket [2] 0 3] ∧ claimBucket [2] 0 3 ≤ 3 := by
  have h := c5_amended [2] 1 3 rfl (by decide) ⟨2, by decide, by decide⟩ (by decide)
  exact ⟨h.1, h.2 0 (by decide)⟩

/-- C8 amended: for a nonnegative series with a positive maximum and
`scale_x = 1`, the output is the single bucket
`floor(raw[0].cpm / max_cpm * scale_y)` — the normalized value of the
OLDEST (first) point, not the most recent one.  (With two or more points
the division by `scale_x - 1 = 0` produces NaN indices whose `as usize`
cast saturates to 0, so the averaged range is exactly `raw[0]`.) -/
theorem c8_amended (cpms : List ℚ) (sy : Nat)
    (hpos : ∀ x ∈ cpms, 0 ≤ x) (hsome : ∃ x ∈ cpms, 0 < x) (hsy : sy < 2 ^ 64) :
    resample cpms 1 sy = Except.ok [claimBucket cpms 0 sy] := by
  have hmx : 0 < maxCpm cpms := maxCpm_pos hsome
  have hne : cpms ≠ [] := by
    rintro rfl
    obtain ⟨x, hx, -⟩ := hsome
    cases hx
  obtain ⟨c0, rest, rfl⟩ := List.exists_cons_of_ne_nil hne
  have hc0 : 0 ≤ c0 := hpos c0 (List.mem_cons_self c0 rest)
  have hle : c0 ≤ maxCpm (c0 :: rest) := mem_le_maxCpm (List.mem_cons_self c0 rest)
  cases rest with
  | nil =>
    have h := (bucketAt_exact [c0] 1 sy rfl hpos hsome hsy 0 (by decide)).1
    unfold resample
    rw [show List.range 1 = [0] from rfl]
    unfold resampleGo
    rw [h]
    rfl
  | cons c1 rest =>
    have hq0 : 0 ≤ c0 / maxCpm (c0 :: c1 :: rest) * (sy : ℚ) :=
      mul_nonneg (div_nonneg hc0 (le_of_lt hmx)) (Nat.cast_nonneg sy)
    have hqup : c0 / maxCpm (c0 :: c1 :: rest) * (sy : ℚ) ≤ (sy : ℚ) := by
      calc c0 / maxCpm (c0 :: c1 :: rest) * (sy : ℚ) ≤ 1 * (sy : ℚ) := by
            apply mul_le_mul_of_nonneg_right _ (Nat.cast_nonneg sy)
            rw [div_le_one hmx]
            exact hle
      _ = (sy : ℚ) := one_mul _
    obtain ⟨hcast, -⟩ :=
      toUsize_val_eq (c0 / maxCpm (c0 :: c1 :: rest) * (sy : ℚ)) sy hq0 hqup hsy
    unfold resample
    rw [show List.range 1 = [0] from rfl]
    unfold resampleGo
    have hb : bucketAt (c0 :: c1 :: rest) 1 sy (maxCpm (c0 :: c1 :: rest)) 0 =
        Except.ok (claimBucket (c0 :: c1 :: rest) 0 sy) := by
      show Except.ok ((((RF.val ((0 + c0) / ((1 : Nat) : ℚ))).div
          (RF.val (maxCpm (c0 :: c1 :: rest)))).mul (RF.val ((sy : Nat) : ℚ))).toUsize) = _
      have h1 : (0 + c0) / ((1 : Nat) : ℚ) = c0 := by norm_num
      rw [h1]
      have hdiv : (RF.val c0).div (RF.val (maxCpm (c0 :: c1 :: rest))) =
          RF.val (c0 / maxCpm (c0 :: c1 :: rest)) := by
        unfold RF.div
        dsimp only
        rw [if_neg (ne_of_gt hmx)]
      rw [hdiv]
      show Except.ok ((RF.val (c0 / maxCpm (c0 :: c1 :: rest) * (sy : ℚ))).toUsize) = _
      rw [hcast]
      unfold claimBucket
      rw [claimMax_eq_maxCpm _ (by simp) hpos]
      rfl
    rw [hb]
    rfl

/-- C8 fails as stated: for the two-point series `[10, 20]` with
`scale_x = 1`, `scale_y = 10`, the claimed bucket is the normalized most
recent point, `floor(20 / 20 * 10) = 10`, but the code averages exactly
the index-0 range selected by the NaN casts and outputs
`floor(10 / 20 * 10) = 5`. -/
theorem c8_counterexample :
    resample [10, 20] 1 10 = Except.ok [5] ∧ claimRecentBucket [10, 20] 10 = 10 := by
  constructor
  · show Except.ok [(((RF.val ((0 + 10) / ((1 : Nat) : ℚ))).div
        (RF.val (maxCpm [10, 20]))).mul (RF.val ((10 : Nat) : ℚ))).toUsize] = _
    have h1 : ((RF.val ((0 + 10) / ((1 : Nat) : ℚ))).div (RF.val (maxCpm [10, 20]))).mul
        (RF.val ((10 : Nat) : ℚ)) = RF.val ((0 + 10) / ((1 : Nat) : ℚ) / 20 * ((10 : Nat) : ℚ)) := by
      have hm : maxCpm [10, 20] = 20 := rfl
      rw [hm]
      unfold RF.div
      dsimp only
      rw [if_neg (by norm_num)]
      rfl
    rw [h1]
    have h2 : (0 + 10 : ℚ) / ((1 : Nat) : ℚ) / 20 * ((10 : Nat) : ℚ) = 5 := by norm_num
    rw [h2]
    have h3 : (RF.val (5 : ℚ)).toUsize = 5 := by
      unfold RF.toUsize
      dsimp only
      rw [if_neg (by norm_num)]
      rw [show ⌊(5 : ℚ)⌋ = 5 by norm_num]
      rfl
    rw [h3]
  · unfold claimRecentBucket claimMax
    simp only [List.getLastD, List.headD_cons, List.foldl_cons, List.foldl_nil, max_self]
    norm_num
    decide

/-- Witness for the amended C8 at the series `[10, 20]`, `scale_y = 7`. -/
theorem c8_amended_witness :
    resample [10, 20] 1 7 = Except.ok [claimBucket [10, 20] 0 7] :=
  c8_amended [10, 20] 7 (by decide) ⟨10, by decide, by decide⟩ (by decide)

/-- The part of the record line before its terminating newline. -/
def bodyOf (fu : Nat → List Char) (ff : ℚ → List Char) (r : RunRecord) : List Char :=
  fu r.time ++ ' ' :: (ff r.accuracy ++ ' ' :: (ff r.wpm ++ ' ' :: ff r.cpm))

/-- The record's serialized tokens are separator-free and parse back to
the same values (the spec's "fixed, lossless numeric text
representation", an assumption about the stdlib codecs). -/
def GoodRecord (pu : List Char → Option Nat) (pf : List Char → Option ℚ)
    (fu : Nat → List Char) (ff : ℚ → List Char) (r : RunRecord) : Prop :=
  pu (fu r.time) = some r.time ∧ pf (ff r.accuracy) = some r.accuracy ∧
  pf (ff r.wpm) = some r.wpm ∧ pf (ff r.cpm) = some r.cpm ∧
  (∀ c ∈ fu r.time, c ≠ ' ' ∧ c ≠ '\n' ∧ c ≠ '\r') ∧
  (∀ c ∈ ff r.accuracy, c ≠ ' ' ∧ c ≠ '\n' ∧ c ≠ '\r') ∧
  (∀ c ∈ ff r.wpm, c ≠ ' ' ∧ c ≠ '\n' ∧ c ≠ '\r') ∧
  (∀ c ∈ ff r.cpm, c ≠ ' ' ∧ c ≠ '\n' ∧ c ≠ '\r')

theorem recordLine_eq (fu : Nat → List Char) (ff : ℚ → List Char) (r : RunRecord) :
    recordLine fu ff r = bodyOf fu ff r ++ ['\n'] := by
  unfold recordLine bodyOf
  simp [List.append_assoc]

theorem appendRuns_eq (fu : Nat → List Char) (ff : ℚ → List Char) :
    ∀ (rs : List RunRecord) (content : List Char),
    appendRuns fu ff content rs = content ++ (rs.map (recordLine fu ff)).flatten
  | [], content => by simp [appendRuns]
  | r :: rs, content => by
    unfold appendRuns
    rw [List.foldl_cons]
    have h := appendRuns_eq fu ff rs
      (end_run fu ff content r.time (some r.accuracy) (some r.wpm) (some r.cpm))
    unfold appendRuns at h
    rw [h]
    unfold end_run
    simp [List.append_assoc]

theorem splitOnChar_cons (sep x : Char) (xs : List Char) :
    splitOnChar sep (x :: xs) =
      match splitOnChar sep xs with
      | [] => [[]]
      | h :: t => if x = sep then [] :: h :: t else (x :: h) :: t := rfl

theorem splitOnChar_ne_nil (sep : Char) : ∀ (l : List Char), splitOnChar sep l ≠ []
  | [] => by simp [splitOnChar]
  | x :: xs => by
    rw [splitOnChar_cons]
    cases h : splitOnChar sep xs with
    | nil => simp
    | cons hh tt =>
      dsimp only
      split_ifs <;> simp

theorem splitOnChar_no_sep (sep : Char) : ∀ (l : List Char), (∀ c ∈ l, c ≠ sep) →
    splitOnChar sep l = [l]
  | [], _ => rfl
  | x :: xs, h => by
    rw [splitOnChar_cons]
    rw [splitOnChar_no_sep sep xs (fun c hc => h c (List.mem_cons_of_mem x hc))]
    dsimp only
    rw [if_neg (h x (List.mem_cons_self x xs))]

theorem splitOnChar_sep_append (sep : Char) : ∀ (a rest : List Char), (∀ c ∈ a, c ≠ sep) →
    splitOnChar sep (a ++ sep :: rest) = a :: splitOnChar sep rest
  | [], rest, _ => by
    rw [List.nil_append, splitOnChar_cons]
    cases h : splitOnChar sep rest with
    | nil => exact absurd h (splitOnChar_ne_nil sep rest)
    | cons hh tt =>
      dsimp only
      rw [if_pos rfl]
  | x :: a, rest, h => by
    rw [List.cons_append, splitOnChar_cons]
    rw [splitOnChar_sep_append sep a rest (fun c hc => h c (List.mem_cons_of_mem x hc))]
    dsimp only
    rw [if_neg (h x (List.mem_cons_self x a))]

theorem stripCR_eq_self {l : List Char} (h : l.getLast? ≠ some '\r') : stripCR l = l := by
  unfold stripCR
  rw [if_neg h]

theorem linesOf_cons_line (body content : List Char) (hb : ∀ c ∈ body, c ≠ '\n')
    (hcr : body.getLast? ≠ some '\r') :
    linesOf (body ++ '\n' :: content) = body :: linesOf content := by
  unfold linesOf
  dsimp only
  rw [splitOnChar_sep_append '\n' body content hb]
  obtain ⟨p, ps, hps⟩ := List.exists_cons_of_ne_nil (splitOnChar_ne_nil '\n' content)
  rw [hps]
  rw [List.dropLast_cons_of_ne_nil (by simp)]
  rw [List.map_cons, stripCR_eq_self hcr]
  rw [List.cons_append]
  rw [show (body :: p :: ps).getLastD [] = (p :: ps).getLastD [] from by
    rw [List.getLastD_eq_getLast?, List.getLastD_eq_getLast?]
    rw [List.getLast?_cons_cons]]

theorem bodyOf_no_nl (fu : Nat → List Char) (ff : ℚ → List Char) (r : RunRecord)
    (pt : ∀ c ∈ fu r.time, c ≠ ' ' ∧ c ≠ '\n' ∧ c ≠ '\r')
    (pa : ∀ c ∈ ff r.accuracy, c ≠ ' ' ∧ c ≠ '\n' ∧ c ≠ '\r')
    (pw : ∀ c ∈ ff r.wpm, c ≠ ' ' ∧ c ≠ '\n' ∧ c ≠ '\r')
    (pc : ∀ c ∈ ff r.cpm, c ≠ ' ' ∧ c ≠ '\n' ∧ c ≠ '\r') :
    ∀ c ∈ bodyOf fu ff r, c ≠ '\n' := by
  intro c hc
  unfold bodyOf at hc
  simp only [List.mem_append, List.mem_cons] at hc
  rcases hc with h | h | h | h | h | h | h
  · exact (pt c h).2.1
  · subst h
    decide
  · exact (pa c h).2.1
  · subst h
    decide
  · exact (pw c h).2.1
  · subst h
    decide
  · exact (pc c h).2.1

theorem getLast?_cons_ne_nil {α : Type} (a : α) {l : List α} (h : l ≠ []) :
    (a :: l).getLast? = l.getLast? := by
  rw [show a :: l = [a] ++ l from rfl, List.getLast?_append_of_ne_nil _ h]

theorem bodyOf_last_ne_cr (fu : Nat → List Char) (ff : ℚ → List Char) (r : RunRecord)
    (pc : ∀ c ∈ ff r.cpm, c ≠ ' ' ∧ c ≠ '\n' ∧ c ≠ '\r') :
    (bodyOf fu ff r).getLast? ≠ some '\r' := by
  unfold bodyOf
  rw [List.getLast?_append_of_ne_nil _ (by simp)]
  rw [getLast?_cons_ne_nil _ (by simp)]
  rw [List.getLast?_append_of_ne_nil _ (by simp)]
  rw [getLast?_cons_ne_nil _ (by simp)]
  rw [List.getLast?_append_of_ne_nil _ (by simp)]
  cases hl : ff r.cpm with
  | nil => decide
  | cons y ys =>
    rw [List.getLast?_cons_cons]
    cases hcl : (y :: ys).getLast? with
    | none => simp at hcl
    | some x =>
      have hx : x ∈ ff r.cpm := by
        obtain ⟨zs, hzs⟩ := List.getLast?_eq_some_iff.mp hcl
        rw [hl, hzs]
        simp
      intro hcontra
      injection hcontra with hcontra
      exact (pc x hx).2.2 hcontra

theorem parseLine_body (pu : List Char → Option Nat) (pf : List Char → Option ℚ)
    (fu : Nat → List Char) (ff : ℚ → List Char) (r : RunRecord)
    (hg : GoodRecord pu pf fu ff r) :
    parseLine pu pf (bodyOf fu ff r) = some ⟨r.cpm, r.time, r.accuracy, r.wpm⟩ := by
  obtain ⟨h1, h2, h3, h4, p1, p2, p3, p4⟩ := hg
  have hsplit : splitOnChar ' ' (bodyOf fu ff r) =
      [fu r.time, ff r.accuracy, ff r.wpm, ff r.cpm] := by
    unfold bodyOf
    rw [splitOnChar_sep_append ' ' _ _ (fun c hc => (p1 c hc).1),
      splitOnChar_sep_append ' ' _ _ (fun c hc => (p2 c hc).1),
      splitOnChar_sep_append ' ' _ _ (fun c hc => (p3 c hc).1),
      splitOnChar_no_sep ' ' _ (fun c hc => (p4 c hc).1)]
  unfold parseLine
  dsimp only
  rw [hsplit]
  dsimp only [List.get?]
  rw [h1, h2, h3, h4]

theorem readLines_join (pu : List Char → Option Nat) (pf : List Char → Option ℚ)
    (fu : Nat → List Char) (ff : ℚ → List Char) :
    ∀ (rs : List RunRecord), (∀ r ∈ rs, GoodRecord pu pf fu ff r) →
    readLines pu pf (linesOf ((rs.map (recordLine fu ff)).flatten)) =
      some (rs.map fun r => (⟨r.cpm, r.time, r.accuracy, r.wpm⟩ : DataPoint))
  | [], _ => rfl
  | r :: rs, hg => by
    obtain ⟨h1, h2, h3, h4, p1, p2, p3, p4⟩ := hg r (List.mem_cons_self r rs)
    rw [List.map_cons, List.flatten_cons, recordLine_eq, List.append_assoc,
      List.singleton_append]
    rw [linesOf_cons_line _ _ (bodyOf_no_nl fu ff r p1 p2 p3 p4)
      (bodyOf_last_ne_cr fu ff r p4)]
    unfold readLines
    rw [parseLine_body pu pf fu ff r ⟨h1, h2, h3, h4, p1, p2, p3, p4⟩]
    dsimp only
    rw [readLines_join pu pf fu ff rs (fun x hx => hg x (List.mem_cons_of_mem r hx))]
    rfl

/-- C9: appending any list of well-formed records (records whose
serialized numeric tokens are free of separators and parse back to the
same values — the spec's fixed, lossless representation, an assumption on
the stdlib codecs `fu`/`ff`/`pu`/`pf`) to an empty log by consecutive
`end_run`s and then reading the log back with `get_raw_improvement`
yields exactly those records, in append order, with timestamp, accuracy,
wpm and cpm recovered exactly. -/
theorem c9_roundtrip (pu : List Char → Option Nat) (pf : List Char → Option ℚ)
    (fu : Nat → List Char) (ff : ℚ → List Char) (rs : List RunRecord)
    (hgood : ∀ r ∈ rs, GoodRecord pu pf fu ff r) :
    get_raw_improvement pu pf (some (appendRuns fu ff [] rs)) =
      some (rs.map fun r => (⟨r.cpm, r.time, r.accuracy, r.wpm⟩ : DataPoint)) := by
  unfold get_raw_improvement
  dsimp only
  rw [appendRuns_eq, List.nil_append]
  exact readLines_join pu pf fu ff rs hgood

/-- Toy lossless `u64` codec (unary in `I`) for the round-trip witness. -/
def fuW : Nat → List Char := fun n => List.replicate n 'I'

/-- Parser half of `fuW`. -/
def puW : List Char → Option Nat :=
  fun l => if l.all (fun c => c = 'I') then some l.length else none

/-- Toy `f32` formatter, lossless on the witness values `1` and `2`. -/
def ffW : ℚ → List Char :=
  fun q => if q = 1 then ['a'] else if q = 2 then ['b'] else ['z']

/-- Parser half of `ffW`. -/
def pfW : List Char → Option ℚ :=
  fun l => if l = ['a'] then some 1 else if l = ['b'] then some 2 else none

/-- Two concrete runs for the round-trip witness. -/
def rsW : List RunRecord := [⟨3, 1, 2, 1⟩, ⟨5, 2, 1, 2⟩]

/-- Witness for C9: two concrete records under the toy codecs round-trip
through the log. -/
theorem c9_roundtrip_witness :
    get_raw_improvement puW pfW (some (appendRuns fuW ffW [] rsW)) =
      some (rsW.map fun r => (⟨r.cpm, r.time, r.accuracy, r.wpm⟩ : DataPoint)) :=
  c9_roundtrip puW pfW fuW ffW rsW (by
    intro r hr
    simp only [rsW, List.mem_cons, List.not_mem_nil, or_false] at hr
    rcases hr with rfl | rfl <;>
      exact ⟨by decide, by decide, by decide, by decide,
        by decide, by decide, by decide, by decide⟩)

/-- The loop of `TextManager::get_text_parts`: match the typed characters
against the remaining `char_indices` iterator of the target, toggling
between matched and mismatched spans at `get_next_boundary` offsets.  The
state is `(result, current_right, start, last_idx)`; the two sequential
`if`s of the source are exclusive (the first one falsifies the second's
condition), hence the `else if`. -/
def partsLoop (target : List Char) :
    List Char → List (Nat × Char) → List (List Char) → Bool → Nat → Int →
    List (List Char) × Bool × Nat × Int
  | [], _, result, cr, start, last => (result, cr, start, last)
  | _ :: typed, [], result, cr, start, last =>
    partsLoop target typed [] result cr start last
  | c :: typed, (ti, tc) :: iter, result, cr, start, last =>
    if cr ∧ c ≠ tc then
      partsLoop target typed iter
        (result ++ [byteSlice target start (get_next_boundary target ti)]) false
        (get_next_boundary target ti) (ti : Int)
    else if ¬ cr ∧ c = tc then
      partsLoop target typed iter
        (result ++ [byteSlice target start (get_next_boundary target ti)]) true
        (get_next_boundary target ti) (ti : Int)
    else
      partsLoop target typed iter result cr start (ti : Int)

/-- `TextManager::get_text_parts`: run the loop, then push the span up to
the boundary after the last consumed target byte and the remainder span.
The slicing always happens at in-range character boundaries (proved
below), so Rust's slice-index panic never fires. -/
def get_text_parts (tm : TM) : List (List Char) :=
  let st := partsLoop tm.current_text tm.typed_text (charIndices tm.current_text)
    [] true 0 (-1)
  let e := get_next_boundary tm.current_text (st.2.2.2 + 1).toNat
  st.1 ++ [byteSlice tm.current_text st.2.2.1 e,
    byteSlice tm.current_text e (utf8Len tm.current_text)]

theorem sliceFrom_eq_nil (a b : Nat) : ∀ (cs : List Char) (o : Nat), b ≤ o →
    sliceFrom a b o cs = []
  | [], _, _ => rfl
  | c :: cs, o, h => by
    unfold sliceFrom
    rw [if_neg (by omega), List.nil_append]
    exact sliceFrom_eq_nil a b cs (o + c.utf8Size) (by omega)

theorem sliceFrom_chain (a b c : Nat) (hab : a ≤ b) (hbc : b ≤ c) :
    ∀ (cs : List Char) (o : Nat),
    sliceFrom a b o cs ++ sliceFrom b c o cs = sliceFrom a c o cs
  | [], _ => rfl
  | x :: cs, o => by
    have hsz := Char.utf8Size_pos x
    have ih := sliceFrom_chain a b c hab hbc cs (o + x.utf8Size)
    unfold sliceFrom
    by_cases h1 : a ≤ o ∧ o < b
    · rw [if_pos h1, if_neg (by omega : ¬ (b ≤ o ∧ o < c)),
        if_pos (by omega : a ≤ o ∧ o < c), ← ih]
      simp
    · rw [if_neg h1]
      by_cases h2 : b ≤ o ∧ o < c
      · rw [if_pos h2, if_pos (by omega : a ≤ o ∧ o < c)]
        rw [sliceFrom_eq_nil a b cs (o + x.utf8Size) (by omega)] at ih ⊢
        rw [← ih]
        simp
      · rw [if_neg h2, if_neg (by omega : ¬ (a ≤ o ∧ o < c)), ← ih]
        simp

theorem sliceFrom_take : ∀ (cs : List Char) (k o a : Nat), a ≤ o →
    sliceFrom a (o + utf8Len (List.take k cs)) o cs = List.take k cs
  | [], k, o, a, _ => by
    rw [List.take_nil]
    rfl
  | x :: cs, 0, o, a, _ => by
    rw [List.take_zero, utf8Len_nil]
    exact sliceFrom_eq_nil a (o + 0) (x :: cs) o (by omega)
  | x :: cs, k + 1, o, a, h => by
    have hsz := Char.utf8Size_pos x
    rw [List.take_succ_cons, utf8Len_cons]
    unfold sliceFrom
    rw [if_pos ⟨h, by omega⟩]
    rw [show o + (x.utf8Size + utf8Len (List.take k cs))
        = o + x.utf8Size + utf8Len (List.take k cs) from by omega]
    rw [sliceFrom_take cs k (o + x.utf8Size) a (by omega)]
    rfl

theorem byteSlice_take (s : List Char) (k : Nat) :
    byteSlice s 0 (utf8Len (List.take k s)) = List.take k s := by
  have h := sliceFrom_take s k 0 0 (Nat.le_refl 0)
  rw [Nat.zero_add] at h
  exact h

theorem byteSlice_full (s : List Char) : byteSlice s 0 (utf8Len s) = s := by
  have h := byteSlice_take s s.length
  rw [List.take_length] at h
  exact h

theorem byteSlice_chain (s : List Char) (a b c : Nat) (hab : a ≤ b) (hbc : b ≤ c) :
    byteSlice s a b ++ byteSlice s b c = byteSlice s a c :=
  sliceFrom_chain a b c hab hbc s 0

theorem charIndicesAux_append (ys : List Char) : ∀ (xs : List Char) (o : Nat),
    charIndicesAux o (xs ++ ys)
      = charIndicesAux o xs ++ charIndicesAux (o + utf8Len xs) ys
  | [], o => by
    rw [List.nil_append, utf8Len_nil, Nat.add_zero]
    rfl
  | x :: xs, o => by
    rw [List.cons_append]
    rw [show charIndicesAux o (x :: (xs ++ ys))
        = (o, x) :: charIndicesAux (o + x.utf8Size) (xs ++ ys) from rfl]
    rw [charIndicesAux_append ys xs (o + x.utf8Size)]
    rw [utf8Len_cons]
    rw [show o + (x.utf8Size + utf8Len xs) = o + x.utf8Size + utf8Len xs from by omega]
    rfl

theorem charIndicesAux_mem_bounds : ∀ (cs : List Char) (o : Nat) (p : Nat × Char),
    p ∈ charIndicesAux o cs → o ≤ p.1 ∧ p.1 < o + utf8Len cs
  | [], o, p, h => by
    rw [show charIndicesAux o ([] : List Char) = [] from rfl] at h
    cases h
  | c :: cs, o, p, h => by
    have hsz := Char.utf8Size_pos c
    rw [show charIndicesAux o (c :: cs)
        = (o, c) :: charIndicesAux (o + c.utf8Size) cs from rfl] at h
    rw [utf8Len_cons]
    rcases List.mem_cons.mp h with h | h
    · subst h
      exact ⟨Nat.le_refl o, by omega⟩
    · have := charIndicesAux_mem_bounds cs (o + c.utf8Size) p h
      omega

theorem charIndicesAux_mem_take : ∀ (cs : List Char) (o : Nat) (p : Nat × Char),
    p ∈ charIndicesAux o cs → ∃ k, k ≤ cs.length ∧ p.1 = o + utf8Len (List.take k cs)
  | [], o, p, h => by
    rw [show charIndicesAux o ([] : List Char) = [] from rfl] at h
    cases h
  | c :: cs, o, p, h => by
    rw [show charIndicesAux o (c :: cs)
        = (o, c) :: charIndicesAux (o + c.utf8Size) cs from rfl] at h
    rcases List.mem_cons.mp h with h | h
    · subst h
      exact ⟨0, Nat.zero_le _, by rw [List.take_zero, utf8Len_nil]; rfl⟩
    · obtain ⟨k, hk, hp⟩ := charIndicesAux_mem_take cs (o + c.utf8Size) p h
      refine ⟨k + 1, by simpa using Nat.succ_le_succ hk, ?_⟩
      rw [List.take_succ_cons, utf8Len_cons, hp]
      omega

theorem isBoundary_append (as bs : List Char) :
    isBoundary (as ++ bs) (utf8Len as) = true := by
  cases bs with
  | nil =>
    unfold isBoundary
    rw [List.append_nil]
    simp
  | cons b bs =>
    unfold isBoundary
    rw [Bool.or_eq_true]
    right
    rw [List.any_eq_true]
    refine ⟨(utf8Len as, b), ?_, by simp⟩
    unfold charIndices
    rw [charIndicesAux_append]
    rw [show charIndicesAux (0 + utf8Len as) (b :: bs)
        = (0 + utf8Len as, b) :: charIndicesAux (0 + utf8Len as + b.utf8Size) bs from rfl]
    simp

theorem isBoundary_zero (s : List Char) : isBoundary s 0 = true :=
  isBoundary_append [] s

theorem isBoundary_utf8Len (s : List Char) : isBoundary s (utf8Len s) = true := by
  have h := isBoundary_append s []
  rw [List.append_nil] at h
  exact h

theorem isBoundary_to_take (s : List Char) (i : Nat) (h : isBoundary s i = true) :
    ∃ k, k ≤ s.length ∧ i = utf8Len (List.take k s) := by
  unfold isBoundary at h
  rw [Bool.or_eq_true] at h
  rcases h with h | h
  · exact ⟨s.length, Nat.le_refl _, by rw [List.take_length]; exact beq_iff_eq.mp h⟩
  · rw [List.any_eq_true] at h
    obtain ⟨p, hp, hpi⟩ := h
    obtain ⟨k, hk, hval⟩ := charIndicesAux_mem_take s 0 p hp
    refine ⟨k, hk, ?_⟩
    have hpe : p.1 = i := beq_iff_eq.mp hpi
    omega

theorem utf8Len_byteSlice_zero (s : List Char) (v : Nat) (h : isBoundary s v = true) :
    utf8Len (byteSlice s 0 v) = v := by
  obtain ⟨k, _, rfl⟩ := isBoundary_to_take s v h
  rw [byteSlice_take]

theorem utf8Len_byteSlice (s : List Char) (a b : Nat) (hab : a ≤ b)
    (ha : isBoundary s a = true) (hb : isBoundary s b = true) :
    utf8Len (byteSlice s a b) = b - a := by
  have h := congrArg utf8Len (byteSlice_chain s 0 a b (Nat.zero_le a) hab)
  rw [utf8Len_append, utf8Len_byteSlice_zero s a ha, utf8Len_byteSlice_zero s b hb] at h
  omega

theorem isBoundary_inside_false (pre rest : List Char) (tc : Char) (j : Nat)
    (h1 : 1 ≤ j) (h2 : j < tc.utf8Size) :
    isBoundary (pre ++ tc :: rest) (utf8Len pre + j) = false := by
  unfold isBoundary
  rw [Bool.or_eq_false_iff]
  constructor
  · rw [beq_eq_false_iff_ne]
    rw [utf8Len_append, utf8Len_cons]
    omega
  · rw [List.any_eq_false]
    intro p hp
    rw [charIndices, charIndicesAux_append] at hp
    rw [show charIndicesAux (0 + utf8Len pre) (tc :: rest)
        = (0 + utf8Len pre, tc) :: charIndicesAux (0 + utf8Len pre + tc.utf8Size) rest
        from rfl] at hp
    simp only [beq_iff_eq]
    rcases List.mem_append.mp hp with h | h
    · have := charIndicesAux_mem_bounds pre 0 p h
      omega
    · rcases List.mem_cons.mp h with h | h
      · rw [h]
        show ¬ (0 + utf8Len pre = utf8Len pre + j)
        omega
      · have := charIndicesAux_mem_bounds rest (0 + utf8Len pre + tc.utf8Size) p h
        omega

theorem nextBoundaryAux_eq (s : List Char) :
    ∀ (fuel i e : Nat), i ≤ e → e ≤ fuel + i →
    (∀ j, i ≤ j → j < e → isBoundary s j = false) → isBoundary s e = true →
    nextBoundaryAux s fuel i = e
  | 0, i, e, h1, h2, _, _ => by
    unfold nextBoundaryAux
    omega
  | fuel + 1, i, e, h1, h2, hmid, he => by
    unfold nextBoundaryAux
    by_cases hi : i = e
    · subst hi
      rw [if_pos he]
    · have hib : isBoundary s i = false := hmid i (Nat.le_refl i) (by omega)
      have hnb : ¬ (isBoundary s i = true) := by rw [hib]; exact Bool.false_ne_true
      rw [if_neg hnb]
      exact nextBoundaryAux_eq s fuel (i + 1) e (by omega) (by omega)
        (fun j hj1 hj2 => hmid j (by omega) hj2) he

theorem get_next_boundary_id (s : List Char) (i : Nat) (h : isBoundary s i = true) :
    get_next_boundary s i = i := by
  unfold get_next_boundary
  exact nextBoundaryAux_eq s _ i i (Nat.le_refl i) (by omega)
    (fun j h1 h2 => by omega) h

theorem get_next_boundary_next (pre rest : List Char) (tc : Char) :
    get_next_boundary (pre ++ tc :: rest) (utf8Len pre + 1)
      = utf8Len pre + tc.utf8Size := by
  have hsz := Char.utf8Size_pos tc
  have hlen : utf8Len (pre ++ tc :: rest) = utf8Len pre + tc.utf8Size + utf8Len rest := by
    rw [utf8Len_append, utf8Len_cons]
    omega
  unfold get_next_boundary
  apply nextBoundaryAux_eq
  · omega
  · omega
  · intro j hj1 hj2
    obtain ⟨j', hjeq, hj'1, hj'2⟩ :
        ∃ j', j = utf8Len pre + j' ∧ 1 ≤ j' ∧ j' < tc.utf8Size :=
      ⟨j - utf8Len pre, by omega⟩
    rw [hjeq]
    exact isBoundary_inside_false pre rest tc j' hj'1 hj'2
  · have h := isBoundary_append (pre ++ [tc]) rest
    rw [List.append_assoc, List.singleton_append, utf8Len_append] at h
    rw [show utf8Len [tc] = tc.utf8Size from by rw [utf8Len_cons, utf8Len_nil]; omega] at h
    exact h

theorem spanBounds_push (t : List Char) (res : List (List Char)) (x : List Char)
    (h2 : ∀ j, isBoundary t (utf8Len (List.flatten (List.take j res))) = true)
    (hx : isBoundary t (utf8Len (List.flatten (res ++ [x]))) = true) :
    ∀ j, isBoundary t (utf8Len (List.flatten (List.take j (res ++ [x])))) = true := by
  intro j
  by_cases hj : j ≤ res.length
  · rw [List.take_append_of_le_length hj]
    exact h2 j
  · rw [List.take_of_length_le (by simp; omega)]
    exact hx

theorem partsLoop_spec (tgt : List Char) :
    ∀ (typed pre rest : List Char) (result : List (List Char)) (cr : Bool)
      (start : Nat) (last : Int),
    tgt = pre ++ rest →
    List.flatten result = byteSlice tgt 0 start →
    utf8Len (List.flatten result) = start →
    (∀ j, isBoundary tgt (utf8Len (List.flatten (List.take j result))) = true) →
    isBoundary tgt start = true →
    start ≤ utf8Len pre →
    get_next_boundary tgt (last + 1).toNat = utf8Len pre →
    ∃ res cr2 start2 last2,
      partsLoop tgt typed (charIndicesAux (utf8Len pre) rest) result cr start last
        = (res, cr2, start2, last2) ∧
      List.flatten res = byteSlice tgt 0 start2 ∧
      utf8Len (List.flatten res) = start2 ∧
      (∀ j, isBoundary tgt (utf8Len (List.flatten (List.take j res))) = true) ∧
      isBoundary tgt start2 = true ∧
      start2 ≤ get_next_boundary tgt (last2 + 1).toNat ∧
      get_next_boundary tgt (last2 + 1).toNat ≤ utf8Len tgt ∧
      isBoundary tgt (get_next_boundary tgt (last2 + 1).toNat) = true
  | [], pre, rest, result, cr, start, last => fun ht h1 h3 h2 h4 h6 h5 => by
    refine ⟨result, cr, start, last, rfl, h1, h3, h2, h4, ?_, ?_, ?_⟩
    · rw [h5]
      exact h6
    · rw [h5, ht, utf8Len_append]
      omega
    · rw [h5, ht]
      exact isBoundary_append pre rest
  | c :: typed, pre, [], result, cr, start, last => fun ht h1 h3 h2 h4 h6 h5 => by
    have ih := partsLoop_spec tgt typed pre [] result cr start last ht h1 h3 h2 h4 h6 h5
    rw [show charIndicesAux (utf8Len pre) ([] : List Char) = [] from rfl] at ih ⊢
    rw [show partsLoop tgt (c :: typed) [] result cr start last
        = partsLoop tgt typed [] result cr start last from rfl]
    exact ih
  | c :: typed, pre, tc :: rest, result, cr, start, last => fun ht h1 h3 h2 h4 h6 h5 => by
    have hsz := Char.utf8Size_pos tc
    have hb_off : isBoundary tgt (utf8Len pre) = true := by
      rw [ht]
      exact isBoundary_append pre (tc :: rest)
    have hgnb : get_next_boundary tgt (utf8Len pre) = utf8Len pre :=
      get_next_boundary_id tgt (utf8Len pre) hb_off
    have htgt2 : tgt = (pre ++ [tc]) ++ rest := by
      rw [ht, List.append_assoc, List.singleton_append]
    have hlen2 : utf8Len (pre ++ [tc]) = utf8Len pre + tc.utf8Size := by
      rw [utf8Len_append, utf8Len_cons, utf8Len_nil]
      omega
    have hb_off2 : isBoundary tgt (utf8Len pre + tc.utf8Size) = true := by
      rw [← hlen2, htgt2]
      exact isBoundary_append (pre ++ [tc]) rest
    have hgnb_next : get_next_boundary tgt (((utf8Len pre : Int)) + 1).toNat
        = utf8Len (pre ++ [tc]) := by
      rw [show (((utf8Len pre : Int)) + 1).toNat = utf8Len pre + 1 from by omega]
      rw [ht, hlen2]
      exact get_next_boundary_next pre rest tc
    rw [show charIndicesAux (utf8Len pre) (tc :: rest)
        = (utf8Len pre, tc) :: charIndicesAux (utf8Len pre + tc.utf8Size) rest from rfl]
    unfold partsLoop
    split_ifs with hbr1 hbr2
    · have hfl : List.flatten (result ++ [byteSlice tgt start (utf8Len pre)])
          = List.flatten result ++ byteSlice tgt start (utf8Len pre) := by
        simp
      have h1' : List.flatten (result ++ [byteSlice tgt start (utf8Len pre)])
          = byteSlice tgt 0 (utf8Len pre) := by
        rw [hfl, h1, byteSlice_chain tgt 0 start (utf8Len pre) (Nat.zero_le start) h6]
      have h3' : utf8Len (List.flatten (result ++ [byteSlice tgt start (utf8Len pre)]))
          = utf8Len pre := by
        rw [hfl, utf8Len_append, h3,
          utf8Len_byteSlice tgt start (utf8Len pre) h6 h4 hb_off]
        omega
      have h2' : ∀ j, isBoundary tgt (utf8Len (List.flatten
          (List.take j (result ++ [byteSlice tgt start (utf8Len pre)])))) = true :=
        spanBounds_push tgt result (byteSlice tgt start (utf8Len pre)) h2
          (by rw [h3']; exact hb_off)
      have ih := partsLoop_spec tgt typed (pre ++ [tc]) rest
        (result ++ [byteSlice tgt start (utf8Len pre)]) false (utf8Len pre)
        ((utf8Len pre : Int)) htgt2 h1' h3' h2' hb_off
        (by rw [hlen2]; omega) hgnb_next
      rw [hlen2] at ih
      rw [hgnb]
      exact ih
    · have hfl : List.flatten (result ++ [byteSlice tgt start (utf8Len pre)])
          = List.flatten result ++ byteSlice tgt start (utf8Len pre) := by
        simp
      have h1' : List.flatten (result ++ [byteSlice tgt start (utf8Len pre)])
          = byteSlice tgt 0 (utf8Len pre) := by
        rw [hfl, h1, byteSlice_chain tgt 0 start (utf8Len pre) (Nat.zero_le start) h6]
      have h3' : utf8Len (List.flatten (result ++ [byteSlice tgt start (utf8Len pre)]))
          = utf8Len pre := by
        rw [hfl, utf8Len_append, h3,
          utf8Len_byteSlice tgt start (utf8Len pre) h6 h4 hb_off]
        omega
      have h2' : ∀ j, isBoundary tgt (utf8Len (List.flatten
          (List.take j (result ++ [byteSlice tgt start (utf8Len pre)])))) = true :=
        spanBounds_push tgt result (byteSlice tgt start (utf8Len pre)) h2
          (by rw [h3']; exact hb_off)
      have ih := partsLoop_spec tgt typed (pre ++ [tc]) rest
        (result ++ [byteSlice tgt start (utf8Len pre)]) true (utf8Len pre)
        ((utf8Len pre : Int)) htgt2 h1' h3' h2' hb_off
        (by rw [hlen2]; omega) hgnb_next
      rw [hlen2] at ih
      rw [hgnb]
      exact ih
    · have ih := partsLoop_spec tgt typed (pre ++ [tc]) rest result cr start
        ((utf8Len pre : Int)) htgt2 h1 h3 h2 h4
        (by rw [hlen2]; omega) hgnb_next
      rw [hlen2] at ih
      exact ih

/-- C2: for every `TextManager` state (hence for every reachable typed
buffer against any target), concatenating the spans returned by
`get_text_parts` reproduces `current_text` exactly, and every cumulative
span boundary is a character boundary of `current_text`, so no span
boundary falls inside a multi-code-point character. -/
theorem c2_segmentation (tm : TM) :
    List.flatten (get_text_parts tm) = tm.current_text ∧
    ∀ j, isBoundary tm.current_text
      (utf8Len (List.flatten (List.take j (get_text_parts tm)))) = true := by
  obtain ⟨res, cr2, start2, last2, heq, hflat, hulen, hpref, hbs, hse, hel, hbe⟩ :=
    partsLoop_spec tm.current_text tm.typed_text [] tm.current_text [] true 0 (-1)
      (by rw [List.nil_append])
      ((sliceFrom_eq_nil 0 0 tm.current_text 0 (Nat.le_refl 0)).symm)
      rfl
      (fun j => by rw [List.take_nil]; exact isBoundary_zero tm.current_text)
      (isBoundary_zero tm.current_text)
      (Nat.zero_le _)
      (by
        rw [show ((-1 : Int) + 1).toNat = 0 from rfl, utf8Len_nil]
        exact get_next_boundary_id tm.current_text 0 (isBoundary_zero tm.current_text))
  rw [show charIndicesAux (utf8Len ([] : List Char)) tm.current_text
      = charIndices tm.current_text from rfl] at heq
  unfold get_text_parts
  rw [heq]
  dsimp only
  constructor
  · rw [show List.flatten (res ++ [byteSlice tm.current_text start2
          (get_next_boundary tm.current_text (last2 + 1).toNat),
        byteSlice tm.current_text (get_next_boundary tm.current_text (last2 + 1).toNat)
          (utf8Len tm.current_text)])
        = List.flatten res ++ byteSlice tm.current_text start2
          (get_next_boundary tm.current_text (last2 + 1).toNat) ++
          byteSlice tm.current_text (get_next_boundary tm.current_text (last2 + 1).toNat)
          (utf8Len tm.current_text) from by simp]
    rw [hflat,
      byteSlice_chain tm.current_text 0 start2 _ (Nat.zero_le start2) hse,
      byteSlice_chain tm.current_text 0 _ (utf8Len tm.current_text) (Nat.zero_le _) hel,
      byteSlice_full]
  · have hx1 : isBoundary tm.current_text (utf8Len (List.flatten
        (res ++ [byteSlice tm.current_text start2
          (get_next_boundary tm.current_text (last2 + 1).toNat)]))) = true := by
      rw [show List.flatten (res ++ [byteSlice tm.current_text start2
            (get_next_boundary tm.current_text (last2 + 1).toNat)])
          = List.flatten res ++ byteSlice tm.current_text start2
            (get_next_boundary tm.current_text (last2 + 1).toNat) from by simp]
      rw [utf8Len_append, hulen,
        utf8Len_byteSlice tm.current_text start2 _ hse hbs hbe]
      rw [show start2 + (get_next_boundary tm.current_text (last2 + 1).toNat - start2)
          = get_next_boundary tm.current_text (last2 + 1).toNat from by omega]
      exact hbe
    have hp1 := spanBounds_push tm.current_text res
      (byteSlice tm.current_text start2
        (get_next_boundary tm.current_text (last2 + 1).toNat)) hpref hx1
    have hx2 : isBoundary tm.current_text (utf8Len (List.flatten
        ((res ++ [byteSlice tm.current_text start2
          (get_next_boundary tm.current_text (last2 + 1).toNat)]) ++
          [byteSlice tm.current_text
            (get_next_boundary tm.current_text (last2 + 1).toNat)
            (utf8Len tm.current_text)]))) = true := by
      rw [show List.flatten ((res ++ [byteSlice tm.current_text start2
            (get_next_boundary tm.current_text (last2 + 1).toNat)]) ++
            [byteSlice tm.current_text
              (get_next_boundary tm.current_text (last2 + 1).toNat)
              (utf8Len tm.current_text)])
          = List.flatten res ++ byteSlice tm.current_text start2
            (get_next_boundary tm.current_text (last2 + 1).toNat) ++
            byteSlice tm.current_text
              (get_next_boundary tm.current_text (last2 + 1).toNat)
              (utf8Len tm.current_text) from by simp]
      rw [utf8Len_append, utf8Len_append, hulen,
        utf8Len_byteSlice tm.current_text start2 _ hse hbs hbe,
        utf8Len_byteSlice tm.current_text _ (utf8Len tm.current_text) hel hbe
          (isBoundary_utf8Len tm.current_text)]
      rw [show start2 + (get_next_boundary tm.current_text (last2 + 1).toNat - start2) +
          (utf8Len tm.current_text - get_next_boundary tm.current_text (last2 + 1).toNat)
          = utf8Len tm.current_text from by omega]
      exact isBoundary_utf8Len tm.current_text
    have hp2 := spanBounds_push tm.current_text
      (res ++ [byteSlice tm.current_text start2
        (get_next_boundary tm.current_text (last2 + 1).toNat)])
      (byteSlice tm.current_text (get_next_boundary tm.current_text (last2 + 1).toNat)
        (utf8Len tm.current_text)) hp1 hx2
    intro j
    have hsplit2 : res ++ [byteSlice tm.current_text start2
          (get_next_boundary tm.current_text (last2 + 1).toNat),
        byteSlice tm.current_text (get_next_boundary tm.current_text (last2 + 1).toNat)
          (utf8Len tm.current_text)]
        = (res ++ [byteSlice tm.current_text start2
            (get_next_boundary tm.current_text (last2 + 1).toNat)]) ++
          [byteSlice tm.current_text
            (get_next_boundary tm.current_text (last2 + 1).toNat)
            (utf8Len tm.current_text)] := by
      simp
    rw [hsplit2]
    exact hp2 j
